import Mathlib

/-!
Verification development for the openshell CLI Bridge Pipeline.

This file gives a shallow embedding, faithful to the TypeScript sources, of:
  - the JS string trimming used throughout (`String.prototype.trim`),
  - the incremental output coalescer (`src/bots/stream-edit.ts`,
    `createStreamEditController`),
  - the subprocess streaming executor's line delivery
    (`src/providers/run-jsonl-cli.ts`, `runJsonlCli`),
  - the session store (`session-store.ts`: `SessionStore`),
  - the codex provider adapter (`codex-cli-provider.ts`: `CodexCliProvider.stream`),
  - the conversation orchestrator (`chat-service.ts`: `ChatService.askStream`),
  - the per-conversation serialization lock (`ChatService.withChatLock`),
and proves, or refutes on concrete inputs, the specification claims about them.

Modelling conventions:
  - JS strings are Lean `String`s; where proofs need character-level reasoning we
    work on `String.data : List Char`.
  - Asynchronous code is embedded by treating each synchronous block between
    `await` points as one atomic transition; the event loop's interleavings are
    modelled where a claim is about them (the lock model), while components whose
    claims are about values, not interleavings, are given their sequential
    (atomic-call) semantics.
  - File IO (`writeFileSync`/`renameSync`/`readFileSync` plus `JSON.stringify` /
    `JSON.parse`) is modelled as an in-memory round trip through the persisted
    document's shape: JSON encoding of plain records, arrays and strings is
    assumed to be the identity transport it is for these payloads.
-/

namespace Openshell

/-! JS whitespace and `String.prototype.trim`.

`trim` removes leading and trailing whitespace. We model the ASCII whitespace
characters (space, tab, line feed, carriage return); the additional Unicode
space code points trimmed by JS do not occur in any claim and every theorem
below is insensitive to the exact character class. -/

def jsWs (c : Char) : Bool :=
  c == ' ' || c == '\t' || c == '\n' || c == '\r'

/-- Trim `jsWs` characters from the front and the back of a character list. -/
def trimChars (l : List Char) : List Char :=
  ((l.dropWhile jsWs).reverse.dropWhile jsWs).reverse

/-- Model of JS `String.prototype.trim`. -/
def jsTrim (s : String) : String :=
  String.mk (trimChars s.data)

/-! Incremental Output Coalescer — `createStreamEditController` in
`src/bots/stream-edit.ts`.

The controller closes over `pending : string | null`, `lastApplied : string`
(initially `""`), `lastEditAt : number` (initially `0`) and a `processing`
flag.  `queue(text)` sets `pending` and fires the drain loop (`void run()`)
without awaiting it; `flush(text)` sets `pending` and awaits `run()` — which
returns at once when `processing` is already true.

Two models are used.  The first is a trace model of the publish sequence the
drain loop produces: every publish is emitted by the single drain loop, one
loop iteration per consumed `pending` value, regardless of how calls
interleave with the loop, so properties of the publish trace itself (minimum
spacing, no empty value) are insensitive to call/loop interleaving and can be
proved on the sequence of consumed values.  Each consumed value carries
adversarially chosen non-negative delays — `a` (clock drift before
`Date.now()` is read to compute `wait`), `c` (overshoot of
`setTimeout`-based `sleep(wait)` beyond its deadline) and `b` (duration of the
awaited `edit` call).  The publish trace records each `edit` invocation with
its invocation time.  `edit` is modelled as always succeeding, matching the
"last successful publish" framing of the spec.

The second model (`CoalAsync` below) keeps the `processing` flag and the
drain loop's suspension points, and is used for the claims about when
`flush`'s promise resolves, which do depend on the interleaving. -/

structure CoalCfg where
  intervalMs : Nat
deriving DecidableEq

/-- One call to the controller: `queue(text)` or `flush(text)`, together with
the adversarial time delays of that call (see module comment). -/
inductive CoalOp
  | queue (text : String) (a b c : Nat)
  | flush (text : String) (a b c : Nat)
deriving DecidableEq

structure CoalState where
  pending : Option String
  lastApplied : String
  lastEditAt : Nat
  now : Nat
  /-- Chronological trace of `edit` invocations: published value and the time
  the invocation started. -/
  publishes : List (String × Nat)
deriving DecidableEq

def CoalState.init (n0 : Nat) : CoalState :=
  { pending := none, lastApplied := "", lastEditAt := 0, now := n0, publishes := [] }

/-- One drain-loop iteration on a freshly set `pending = some text` (the only
shape an atomic call produces).  Mirrors `run()`:
`const text = pending; pending = null;`
`if (!text || text === lastApplied) continue;`
`const wait = intervalMs - (Date.now() - lastEditAt); if (wait > 0) await sleep(wait);`
`await edit(text); lastApplied = text; lastEditAt = Date.now();`. -/
def coalDrain (cfg : CoalCfg) (s : CoalState) (text : String) (a b c : Nat) : CoalState :=
  let s1 := { s with pending := none }
  if text = "" ∨ text = s.lastApplied then s1
  else
    let now0 := s.now + a
    let tpub := if now0 < s.lastEditAt + cfg.intervalMs then s.lastEditAt + cfg.intervalMs + c else now0
    let tend := tpub + b
    { pending := none, lastApplied := text, lastEditAt := tend, now := tend,
      publishes := s.publishes ++ [(text, tpub)] }

/-- Atomic semantics of one `queue`/`flush` call: set `pending`, run the drain
loop (one iteration, see `coalDrain`). -/
def coalStep (cfg : CoalCfg) (s : CoalState) : CoalOp → CoalState
  | .queue text a b c => coalDrain cfg { s with pending := some text } text a b c
  | .flush text a b c => coalDrain cfg { s with pending := some text } text a b c

def coalRun (cfg : CoalCfg) (n0 : Nat) (ops : List CoalOp) : CoalState :=
  ops.foldl (coalStep cfg) (CoalState.init n0)

/-- Inductive invariant of the coalescer: publishes are spaced by at least the
configured interval, the last publish precedes `lastEditAt`, no published
value is empty, and `lastApplied` is exactly the last published value (with
`""` meaning "none yet"). -/
def coalInv (cfg : CoalCfg) (s : CoalState) : Prop :=
  List.Chain' (fun p q : String × Nat => p.2 + cfg.intervalMs ≤ q.2) s.publishes ∧
  (∀ p ∈ s.publishes.getLast?, (p : String × Nat).2 ≤ s.lastEditAt) ∧
  (∀ p ∈ s.publishes, (p : String × Nat).1 ≠ "") ∧
  (s.lastApplied = "" → s.publishes = []) ∧
  (s.lastApplied ≠ "" → s.publishes.getLast?.map Prod.fst = some s.lastApplied)

/-! Interleaved (event-loop) semantics of the coalescer.

`run()` begins with `if (processing) return;`, so a `queue`/`flush` call made
while a drain loop is in flight only sets `pending` and returns — in
particular `flush` does not await an in-flight drain.  The drain loop is a
single coroutine: it runs synchronously between its `await` points
(`await sleep(wait)` and `await edit(text)`), where it is parked in a timer
or in the awaited `edit` promise (macrotasks).  When `flush` calls `run()`
and `run()` early-returns, `flush`'s own continuation is a microtask and runs
before any parked drain step, so `flush` resolves immediately; when
`processing` was false, `run()` enters the loop inside the `flush` call and
`flush` resolves when the loop exits (the `finally` setting
`processing = false`).  Scheduler freedom is the arbitrary order and timing
of the resume events. -/

/-- The drain coroutine's suspension point: parked in `await sleep(wait)`
(with the timer's deadline) or in `await edit(text)`. -/
inductive DrainPoint
  | sleeping (text : String) (wakeAt : Nat)
  | editing (text : String)
deriving DecidableEq

structure CoalAsync where
  pending : Option String
  lastApplied : String
  lastEditAt : Nat
  processing : Bool
  /-- The suspended drain coroutine, if one is parked at an `await`. -/
  drain : Option DrainPoint
  /-- Chronological trace of `edit` invocations (published values). -/
  published : List String
  /-- Whether the modelled `flush` call's promise has resolved. -/
  flushReturned : Bool
  /-- Whether that `flush` is awaiting the drain loop it started. -/
  flushWaiting : Bool
  now : Nat
deriving DecidableEq

def CoalAsync.init (n0 : Nat) : CoalAsync :=
  { pending := none, lastApplied := "", lastEditAt := 0, processing := false,
    drain := none, published := [], flushReturned := false, flushWaiting := false,
    now := n0 }

/-- The drain loop's synchronous segment, from the `while (pending !== null)`
check to the next suspension or to loop exit.  Mirrors `run()`'s body:
`const text = pending; pending = null;`
`if (!text || text === lastApplied) continue;` — after the `continue` the
loop re-checks `pending`, which is still `null` (nothing else ran in
between), so the loop exits;
`const wait = intervalMs - (Date.now() - lastEditAt); if (wait > 0) await
sleep(wait);` — parks the coroutine until `now + wait = lastEditAt +
intervalMs`; otherwise `await edit(text)` is invoked at once (the invocation
is recorded in `published`).  Loop exit runs the `finally`
(`processing = false`) and resolves a `flush` awaiting this `run()`. -/
def coalLoopHead (intervalMs : Nat) (s : CoalAsync) : CoalAsync :=
  match s.pending with
  | none =>
    { s with processing := false, drain := none,
             flushReturned := s.flushReturned || s.flushWaiting, flushWaiting := false }
  | some text =>
    if text = "" ∨ text = s.lastApplied then
      { s with pending := none, processing := false, drain := none,
               flushReturned := s.flushReturned || s.flushWaiting, flushWaiting := false }
    else if (intervalMs : Int) - ((s.now : Int) - (s.lastEditAt : Int)) > 0 then
      { s with pending := none,
               drain := some (.sleeping text (s.lastEditAt + intervalMs)) }
    else
      { s with pending := none, published := s.published ++ [text],
               drain := some (.editing text) }

/-- External events: controller calls and scheduler resume events.  `wake dt`
fires the `sleep` timer (never before its deadline); `editDone dt` resolves
the awaited `edit` call; `dt` is the adversarial clock advance. -/
inductive CoalEv
  | queue (text : String)
  | flush (text : String)
  | wake (dt : Nat)
  | editDone (dt : Nat)
deriving DecidableEq

def CoalEv.isResume : CoalEv → Bool
  | .wake _ => true
  | .editDone _ => true
  | _ => false

/-- One event of the interleaved model.  `queue`/`flush` set `pending` and
call `run()`: when `processing` is true `run()` returns at once (and the
`flush` promise resolves, before any parked drain step — see the module
comment); otherwise `run()` sets `processing` and the loop runs to its first
suspension.  A resume event is enabled only at the matching suspension, and
`wake` not before the timer's deadline; on `editDone` the loop writes
`lastApplied`/`lastEditAt` and continues at its head. -/
def coalAsyncStep (intervalMs : Nat) (s : CoalAsync) : CoalEv → Option CoalAsync
  | .queue text =>
    if s.processing then some { s with pending := some text }
    else some (coalLoopHead intervalMs { s with pending := some text, processing := true })
  | .flush text =>
    if s.processing then some { s with pending := some text, flushReturned := true }
    else some (coalLoopHead intervalMs
      { s with pending := some text, processing := true, flushWaiting := true })
  | .wake dt =>
    match s.drain with
    | some (.sleeping text wakeAt) =>
      if wakeAt ≤ s.now + dt then
        some { s with now := s.now + dt, published := s.published ++ [text],
                      drain := some (.editing text) }
      else none
    | _ => none
  | .editDone dt =>
    match s.drain with
    | some (.editing text) =>
      some (coalLoopHead intervalMs
        { s with now := s.now + dt, lastApplied := text, lastEditAt := s.now + dt,
                 drain := none })
    | _ => none

def coalAsyncRun (intervalMs n0 : Nat) (events : List CoalEv) : Option CoalAsync :=
  events.foldlM (coalAsyncStep intervalMs) (CoalAsync.init n0)

/-! Subprocess Streaming Executor — line delivery of `runJsonlCli` in
`src/providers/run-jsonl-cli.ts`.

The `data` handler appends the chunk to `stdoutBuffer` and repeatedly splits
off the text before the first `"\n"`:
`const line = stdoutBuffer.slice(0, newlineIndex).trim();`
`stdoutBuffer = stdoutBuffer.slice(newlineIndex + 1);`
`if (line) queue(() => callbacks.onLine(line));`
and the `close` handler delivers `stdoutBuffer.trim()` if non-empty.
The promise chain `callbackQueue` invokes `onLine` strictly in this order,
awaiting each invocation; we model the delivered lines as the ordered list of
`onLine` arguments (over `List Char`).  stderr handling and handler failure
(which kills the child) are outside the claims and not modelled. -/

/-- Split a character list at every `'\n'`; the last component is the
unterminated remainder (so the result is never empty).  This is the combined
effect of the source's `indexOf("\n")`/`slice` loop: the components before the
last are the complete lines, in order. -/
def splitStep (c : Char) (ps : List (List Char)) : List (List Char) :=
  if c = '\n' then [] :: ps
  else match ps with
    | [] => [[c]]
    | p :: rest => (c :: p) :: rest

def splitNl (l : List Char) : List (List Char) :=
  l.foldr splitStep [[]]

/-- Apply a function to the first component of a split (used to glue splits of
concatenated buffers). -/
def mapHead (f : List Char → List Char) : List (List Char) → List (List Char)
  | [] => []
  | p :: rest => f p :: rest

/-- Last component of a split, i.e. the remainder buffer. -/
def lastPart (ps : List (List Char)) : List Char := ps.getLastD []

/-- Deliver one extracted line: trim it and drop it when empty
(`const line = ....trim(); if (line) ...`). -/
def emitLine (evs : List (List Char)) (line : List Char) : List (List Char) :=
  let t := trimChars line
  if t = [] then evs else evs ++ [t]

structure ExecState where
  buf : List Char
  events : List (List Char)
deriving DecidableEq

/-- The `data` handler: append the chunk to the buffer, deliver every complete
line (trimmed, non-empty ones only), keep the unterminated remainder. -/
def onData (s : ExecState) (chunk : List Char) : ExecState :=
  let parts := splitNl (s.buf ++ chunk)
  { buf := lastPart parts, events := parts.dropLast.foldl emitLine s.events }

/-- The ordered list of `onLine` deliveries for a whole run: fold the chunks
through the `data` handler, then run the `close` handler
(`const remain = stdoutBuffer.trim(); if (remain) queue(() => onLine(remain));`). -/
def execEvents (chunks : List (List Char)) : List (List Char) :=
  let s := chunks.foldl onData ⟨[], []⟩
  emitLine s.events s.buf

/-- Modelled from the spec (for comparison with `execEvents`, claim C5): the
spec's sentence "deliver each complete line of output (split on line-feed,
trimmed of the delimiter)" and "a final unterminated trailing line, if
non-empty, is delivered once the process output stream closes" — every
complete line is delivered with only its delimiter removed, and the trailing
remainder is delivered exactly when non-empty. -/
def specLineEvents (chunks : List (List Char)) : List (List Char) :=
  let parts := splitNl chunks.flatten
  parts.dropLast ++ (if lastPart parts = [] then [] else [lastPart parts])

/-- Trim every line and keep the non-empty results — the per-line treatment the
delivery of `runJsonlCli` actually applies. -/
def trimFilterLines (ls : List (List Char)) : List (List Char) :=
  (ls.map trimChars).filter fun l => !l.isEmpty

/-! Session Store — `SessionStore` in `src/bots/session-store.ts` (data model
from `src/types.ts`).

`Map<string, ChatSession>` is modelled as an association list in insertion
order with unique keys (`aset` replaces in place, `Map.set` semantics;
`aerase` is `Map.delete`).  The `persist()` calls after each mutation write
the whole store; the written document's payload is modelled by
`serializeStore`, and `loadFromDisk`'s normalization of a parsed document by
`loadStore` (see the serialization section below). -/

inductive Role
  | system
  | user
  | assistant
deriving DecidableEq

structure Message where
  role : Role
  content : String
deriving DecidableEq

inductive ProviderName
  | codex
  | claude
deriving DecidableEq

/-- A `Partial<Record<ProviderName, string>>`: at most one value per provider. -/
structure Overrides where
  codex : Option String := none
  claude : Option String := none
deriving DecidableEq

def Overrides.get (o : Overrides) : ProviderName → Option String
  | .codex => o.codex
  | .claude => o.claude

/-- Record update `o[provider] = v` (`v = none` is `delete o[provider]`). -/
def Overrides.set (o : Overrides) : ProviderName → Option String → Overrides
  | .codex, v => { o with codex := v }
  | .claude, v => { o with claude := v }

structure ChatSession where
  provider : ProviderName
  history : List Message
  modelOverrides : Overrides
  reasoningEffortOverrides : Overrides
deriving DecidableEq

structure StoreCfg where
  defaultProvider : ProviderName
  maxHistory : Nat
deriving DecidableEq

structure SessionStore where
  sessions : List (String × ChatSession)
deriving DecidableEq

/-- Association-list lookup (`Map.get`). -/
def alookup {α : Type} : List (String × α) → String → Option α
  | [], _ => none
  | (k', v) :: rest, k => if k' = k then some v else alookup rest k

/-- Association-list insert-or-replace (`Map.set`): replaces in place, appends
new keys at the end, preserving `Map` iteration order. -/
def aset {α : Type} : List (String × α) → String → α → List (String × α)
  | [], k, v => [(k, v)]
  | (k', v') :: rest, k, v =>
    if k' = k then (k, v) :: rest else (k', v') :: aset rest k v

/-- Association-list removal of a key (`Map.delete`). -/
def aerase {α : Type} : List (String × α) → String → List (String × α)
  | [], _ => []
  | (k', v') :: rest, k => if k' = k then rest else (k', v') :: aerase rest k

def emptyStore : SessionStore := ⟨[]⟩

/-- `getOrCreate(chatKey)`: return the session, creating a fresh one with the
default provider, empty history and empty overrides when absent. -/
def getOrCreate (cfg : StoreCfg) (st : SessionStore) (key : String) :
    SessionStore × ChatSession :=
  match alookup st.sessions key with
  | some s => (st, s)
  | none =>
    let s : ChatSession :=
      { provider := cfg.defaultProvider, history := [],
        modelOverrides := {}, reasoningEffortOverrides := {} }
    (⟨aset st.sessions key s⟩, s)

/-- JS `array.slice(-n)`.  For `n = 0`, `slice(-0)` is `slice(0)`: the whole
array; otherwise the last `n` elements (or all of them when `n ≥ length`). -/
def jsSliceLast {α : Type} (l : List α) (n : Nat) : List α :=
  if n = 0 then l else l.drop (l.length - n)

/-- The head-repair step of trimming:
`if (trimmed[0]?.role === "assistant") trimmed = trimmed.slice(1);`. -/
def dropLeadingAssistant : List Message → List Message
  | [] => []
  | m :: rest => if m.role = .assistant then rest else m :: rest

/-- The two `history.push` calls of `appendExchange`. -/
def pushExchange (h : List Message) (u a : String) : List Message :=
  h ++ [{ role := .user, content := u }, { role := .assistant, content := a }]

/-- The trimming applied inside `appendExchange` after pushing the new user and
assistant messages (identical logic to the private `trimHistory`). -/
def appendTrim (maxHistory : Nat) (h : List Message) (u a : String) : List Message :=
  if (pushExchange h u a).length > maxHistory then
    dropLeadingAssistant (jsSliceLast (pushExchange h u a) maxHistory)
  else pushExchange h u a

/-- The private `trimHistory(history)` used by `loadFromDisk`. -/
def trimHistoryFn (maxHistory : Nat) (h : List Message) : List Message :=
  if h.length ≤ maxHistory then h
  else dropLeadingAssistant (jsSliceLast h maxHistory)

/-- One public mutating or session-creating call on the store.  All getters
(`getProvider`, `getModel`, `getReasoningEffort`, `getSessionCount` aside) and
`buildPrompt` mutate the map only through `getOrCreate`, summarized by
`touch`.  `setModel`/`setEffort` take `none` for a JS `undefined` argument. -/
inductive StoreOp
  | touch (key : String)
  | setProvider (key : String) (p : ProviderName)
  | reset (key : String)
  | setModel (key : String) (p : ProviderName) (m : Option String)
  | setEffort (key : String) (p : ProviderName) (e : Option String)
  | appendExchange (key : String) (u a : String)
deriving DecidableEq

/-- The shared body of `setModel` and `setReasoningEffort`:
`if (!model?.trim()) { delete overrides[provider]; } else { overrides[provider] = model.trim(); }`. -/
def setOverride (o : Overrides) (p : ProviderName) (v : Option String) : Overrides :=
  match v with
  | none => o.set p none
  | some m => if jsTrim m = "" then o.set p none else o.set p (some (jsTrim m))

def applyOp (cfg : StoreCfg) (st : SessionStore) : StoreOp → SessionStore
  | .touch key => (getOrCreate cfg st key).1
  | .setProvider key p =>
    let (st1, s) := getOrCreate cfg st key
    ⟨aset st1.sessions key { s with provider := p }⟩
  | .reset key => ⟨aerase st.sessions key⟩
  | .setModel key p m =>
    let (st1, s) := getOrCreate cfg st key
    ⟨aset st1.sessions key { s with modelOverrides := setOverride s.modelOverrides p m }⟩
  | .setEffort key p e =>
    let (st1, s) := getOrCreate cfg st key
    ⟨aset st1.sessions key { s with reasoningEffortOverrides := setOverride s.reasoningEffortOverrides p e }⟩
  | .appendExchange key u a =>
    let (st1, s) := getOrCreate cfg st key
    ⟨aset st1.sessions key { s with history := appendTrim cfg.maxHistory s.history u a }⟩

/-- A store reached by a sequence of operations from a fresh, empty store (no
persisted file present at construction). -/
def runOps (cfg : StoreCfg) (ops : List StoreOp) : SessionStore :=
  ops.foldl (applyOp cfg) emptyStore

/-- Read-side accessors (each also `touch`es the key through `getOrCreate` in
the source; the returned value is the same either way). -/
def getModelOp (cfg : StoreCfg) (st : SessionStore) (key : String) (p : ProviderName) :
    SessionStore × Option String :=
  let (st1, s) := getOrCreate cfg st key
  (st1, s.modelOverrides.get p)

def getEffortOp (cfg : StoreCfg) (st : SessionStore) (key : String) (p : ProviderName) :
    SessionStore × Option String :=
  let (st1, s) := getOrCreate cfg st key
  (st1, s.reasoningEffortOverrides.get p)

def getProviderOp (cfg : StoreCfg) (st : SessionStore) (key : String) :
    SessionStore × ProviderName :=
  let (st1, s) := getOrCreate cfg st key
  (st1, s.provider)

/-- `buildPrompt(chatKey, userText, systemPrompt)`: optional system message
(skipped for a falsy, i.e. empty, prompt), the stored history, then the new
user message; never mutates the stored history. -/
def buildPromptOp (cfg : StoreCfg) (st : SessionStore) (key userText : String)
    (systemPrompt : Option String) : SessionStore × List Message :=
  let (st1, s) := getOrCreate cfg st key
  let sys : List Message := match systemPrompt with
    | some sp => if sp = "" then [] else [{ role := .system, content := sp }]
    | none => []
  (st1, sys ++ s.history ++ [{ role := .user, content := userText }])

/-- The conversation history stored for a key (empty when no session exists). -/
def historyOf (st : SessionStore) (key : String) : List Message :=
  match alookup st.sessions key with
  | some s => s.history
  | none => []

/-! Persistence — `persist()` / `loadFromDisk()`.

`persist()` JSON-serializes `{version: 1, savedAt, sessions: Object.fromEntries(map)}`
and atomically replaces the file; `serializeStore` models the `sessions`
payload (roles become their JSON strings).  `loadFromDisk()` re-validates
every field of the parsed document: `normalizeProvider` falls back to the
default on unknown strings, `normalizeHistory` keeps only `user`/`assistant`
messages with non-empty string content, `normalizeOverrides` keeps only
non-blank string values (trimmed), and the history is passed through
`trimHistory`.  `loadStore` models the whole loop over `Object.entries`;
a missing or malformed file yields the empty store and is not modelled
further. -/

structure RawMessage where
  role : String
  content : String
deriving DecidableEq

structure RawSession where
  provider : String
  history : List RawMessage
  modelOverrides : Overrides
  reasoningEffortOverrides : Overrides
deriving DecidableEq

def Role.toRaw : Role → String
  | .system => "system"
  | .user => "user"
  | .assistant => "assistant"

def ProviderName.toRaw : ProviderName → String
  | .codex => "codex"
  | .claude => "claude"

def serializeMessage (m : Message) : RawMessage :=
  { role := m.role.toRaw, content := m.content }

def serializeSession (s : ChatSession) : RawSession :=
  { provider := s.provider.toRaw, history := s.history.map serializeMessage,
    modelOverrides := s.modelOverrides,
    reasoningEffortOverrides := s.reasoningEffortOverrides }

/-- The `sessions` payload written by `persist()` (entry order is the map's). -/
def serializeStore (st : SessionStore) : List (String × RawSession) :=
  st.sessions.map fun e => (e.1, serializeSession e.2)

/-- `normalizeProvider(value, fallback)`: keep a known provider name, else the
fallback. -/
def normalizeProvider (v : String) (fallback : ProviderName) : ProviderName :=
  if v = "codex" then .codex else if v = "claude" then .claude else fallback

/-- `normalizeOverrides`: per provider, keep `value.trim()` when the value is a
string with non-blank trim. -/
def normalizeOverrideField : Option String → Option String
  | none => none
  | some v => if jsTrim v = "" then none else some (jsTrim v)

def normalizeOverrides (o : Overrides) : Overrides :=
  { codex := normalizeOverrideField o.codex,
    claude := normalizeOverrideField o.claude }

/-- `normalizeHistory`'s per-item check: keep an item whose role is `"user"`
or `"assistant"` and whose content is a non-empty string. -/
def normalizeMessage (rm : RawMessage) : Option Message :=
  if rm.role = "user" then
    if rm.content.length > 0 then some { role := .user, content := rm.content } else none
  else if rm.role = "assistant" then
    if rm.content.length > 0 then some { role := .assistant, content := rm.content } else none
  else none

def normalizeHistory (l : List RawMessage) : List Message :=
  l.filterMap normalizeMessage

/-- One entry of `loadFromDisk`'s loop over `Object.entries(raw.sessions)`. -/
def loadSession (cfg : StoreCfg) (r : RawSession) : ChatSession :=
  { provider := normalizeProvider r.provider cfg.defaultProvider,
    history := trimHistoryFn cfg.maxHistory (normalizeHistory r.history),
    modelOverrides := normalizeOverrides r.modelOverrides,
    reasoningEffortOverrides := normalizeOverrides r.reasoningEffortOverrides }

/-- `loadFromDisk` on a version-1 document: set each normalized session into
the (empty) map of a freshly constructed store. -/
def loadStore (cfg : StoreCfg) (raw : List (String × RawSession)) : SessionStore :=
  ⟨raw.foldl (fun acc e => aset acc e.1 (loadSession cfg e.2)) []⟩

/-! Codex Provider Protocol Adapter — `CodexCliProvider.stream` in
`src/providers/codex-cli-provider.ts`.

The `onLine` handler JSON-parses each line (unparseable lines are ignored) and
dispatches on `event.type`.  We embed the stream at the parsed-event level:
`CodexEvent` carries exactly the fields the handler reads.  For `error` and
`turn.failed` events the handler stores
`extractCodexErrorMessage(...)` when it is non-empty; that extraction
(preferring a JSON `detail`/`message` field of the payload over the raw text,
always trimmed) is pure string processing whose result we carry directly in
the event as `extractedMessage` — an arbitrary string, empty exactly when the
payload had no usable message.  The running `reply` and `cliErrorMessage`
variables are the fold state; the `onText`/`onStatus` callbacks do not affect
the returned value and are not recorded. -/

structure CodexItem where
  itemType : Option String
  text : Option String
  command : Option String
deriving DecidableEq

inductive CodexEvent
  | itemStarted (item : Option CodexItem)
  | errorEvt (extractedMessage : String)
  | turnFailed (extractedMessage : String)
  | itemCompleted (item : Option CodexItem)
  | itemUpdated (item : Option CodexItem)
  | outputTextDelta (delta : Option String)
  | responseCompleted (outputText : Option String)
  | unknownEvt
deriving DecidableEq

structure CodexFold where
  reply : String
  cliErrorMessage : String
deriving DecidableEq

/-- Shared branch of `item.completed` / `item.updated`:
`event.item?.type === "agent_message" && typeof event.item.text === "string"`
replaces the running reply with the item's text. -/
def codexAgentMessage (s : CodexFold) : Option CodexItem → CodexFold
  | some it =>
    if it.itemType = some "agent_message" then
      match it.text with
      | some t => { s with reply := t }
      | none => s
    else s
  | none => s

def codexStep (s : CodexFold) : CodexEvent → CodexFold
  | .itemStarted _ => s
  | .errorEvt em => if em ≠ "" then { s with cliErrorMessage := em } else s
  | .turnFailed em => if em ≠ "" then { s with cliErrorMessage := em } else s
  | .itemCompleted it => codexAgentMessage s it
  | .itemUpdated it => codexAgentMessage s it
  | .outputTextDelta d =>
    match d with
    | some t => if t ≠ "" then { s with reply := s.reply ++ t } else s
    | none => s
  | .responseCompleted o =>
    match o with
    | some t => { s with reply := t }
    | none => s
  | .unknownEvt => s

def codexFold (events : List CodexEvent) : CodexFold :=
  events.foldl codexStep { reply := "", cliErrorMessage := "" }

/-- Substring test (`String.prototype.includes`) on character lists. -/
def containsSub (hay needle : List Char) : Bool :=
  hay.tails.any fun suf => needle.isPrefixOf suf

/-- `extractUsefulStderr(stderrTail)`: last trimmed, non-empty stderr line not
matching the known noisy pattern. -/
def extractUsefulStderr (stderrTail : String) : String :=
  let noisy := "rollout::list: state db missing rollout path for thread"
  let lines := (splitNl stderrTail.data).map trimChars
  let useful := lines.filter fun l => !l.isEmpty && !containsSub l noisy.data
  match useful.getLast? with
  | some l => String.mk l
  | none => ""

/-- The value returned (or error thrown) by `CodexCliProvider.stream` once
`runJsonlCli` resolves with `exitCode` and `stderrTail`, after the handler
processed `events`.  Mirrors:
`const finalReply = reply.trim();`
`if (result.code !== 0) { if (finalReply && !cliErrorMessage) return finalReply; throw ...; }`
`if (!finalReply) throw ...; return finalReply;`. -/
def codexStreamResult (events : List CodexEvent) (exitCode : Nat) (stderrTail : String) :
    Except String String :=
  let s := codexFold events
  let finalReply := jsTrim s.reply
  if exitCode ≠ 0 then
    if finalReply ≠ "" ∧ s.cliErrorMessage = "" then Except.ok finalReply
    else
      let structuredError := jsTrim s.cliErrorMessage
      let stderrMessage := extractUsefulStderr stderrTail
      let detail := if structuredError ≠ "" then structuredError else stderrMessage
      Except.error ("codex CLI exited with code " ++ toString exitCode ++
        (if detail ≠ "" then ": " ++ detail else ""))
  else if finalReply = "" then Except.error "codex CLI 응답이 비어 있습니다."
  else Except.ok finalReply

/-- Events that can set `cliErrorMessage`: an `error` or `turn.failed` event
whose extracted message is non-empty. -/
def CodexEvent.carriesError : CodexEvent → Bool
  | .errorEvt em => em != ""
  | .turnFailed em => em != ""
  | _ => false

/-! Conversation Orchestrator — `ChatService.askStream` in
`src/bots/chat-service.ts`.

The per-key lock body (everything inside `withChatLock`) runs as one
sequential block here; its serialization guarantee is modelled separately
below.  The registry `this.providers` is modelled by the list of configured
provider names (in registration order, so `getAvailableProviders()[0]` is the
head), and the selected adapter's `stream(...)` call by an oracle `streamFn`
returning either the final reply or the thrown error message. -/

structure ChatCfg where
  cfg : StoreCfg
  configured : List ProviderName
  systemPrompt : Option String

/-- The outcome step at the end of `askStream`: a thrown adapter error
propagates with the store untouched; a successful reply is committed with
`appendExchange`. -/
def askStreamFinish (cc : ChatCfg) (st5 : SessionStore) (key userText : String)
    (pname : ProviderName) (r : Except String String) :
    SessionStore × Except String (ProviderName × String) :=
  match r with
  | Except.error e => (st5, Except.error e)
  | Except.ok reply =>
    (applyOp cc.cfg st5 (.appendExchange key userText reply), Except.ok (pname, reply))

/-- The body of `askStream` after the provider is resolved (source lines after
the fallback block): the residual `if (!provider)` re-check, prompt build,
override reads, the adapter call, and `appendExchange` on success. -/
def askStreamResolved (cc : ChatCfg)
    (streamFn : ProviderName → List Message → Option String → Option String → Except String String)
    (st1 : SessionStore) (key userText : String) (pname : ProviderName) :
    SessionStore × Except String (ProviderName × String) :=
  if cc.configured.contains pname = false then
    (st1, Except.error ("Provider '" ++ pname.toRaw ++ "' is not available."))
  else
    let bp := buildPromptOp cc.cfg st1 key userText cc.systemPrompt
    let gm := getModelOp cc.cfg bp.1 key pname
    let ge := getEffortOp cc.cfg gm.1 key pname
    askStreamFinish cc ge.1 key userText pname (streamFn pname bp.2 gm.2 ge.2)

/-- `askStream(chatKey, userText, callbacks)`: read the stored provider
(creating the session), fall back to the first available provider when the
stored one is not configured (persisting the fallback via `setProvider`), or
fail when no provider is configured; then run the resolved body.  Returns the
store after the call and the returned result or thrown error message. -/
def askStream (cc : ChatCfg)
    (streamFn : ProviderName → List Message → Option String → Option String → Except String String)
    (st : SessionStore) (key userText : String) :
    SessionStore × Except String (ProviderName × String) :=
  let gp := getProviderOp cc.cfg st key
  if cc.configured.contains gp.2 then askStreamResolved cc streamFn gp.1 key userText gp.2
  else
    match cc.configured with
    | [] => (gp.1, Except.error "No LLM providers are available.")
    | f :: _ =>
      let go := getOrCreate cc.cfg gp.1 key
      askStreamResolved cc streamFn ⟨aset go.1.sessions key { go.2 with provider := f }⟩
        key userText f

/-! Per-conversation serialization — `ChatService.withChatLock`.

`withChatLock(chatKey, task)` reads `previous = chatLocks.get(chatKey) ?? resolved`,
creates a `current` promise released in `finally`, stores
`tail = previous.then(() => current)` in the map, awaits `previous`, runs the
task, releases `current`, and deletes the map entry if it still holds its own
`tail`.

Embedding: each request is a record with its key, the tail it observed at
arrival (`previous`, `none` for an absent entry or the already-resolved
default), and a status.  The synchronous prefix of `withChatLock` (up to
`await previous`) is the `arrive` transition; `await previous` completing and
the task body beginning is `start` — enabled exactly when the predecessor's
chain has resolved, i.e. the predecessor request finished (or there is none);
the task settling plus the `finally` block is `finish`.  The event loop's
freedom to schedule is the arbitrary order of events; `lockRun` returns
`none` for sequences that violate the transition guards. -/

inductive ReqStatus
  | waiting
  | running
  | done
deriving DecidableEq

structure LockReq where
  rid : Nat
  key : String
  previous : Option Nat
  status : ReqStatus
deriving DecidableEq

structure LockState where
  /-- All requests so far, in arrival order (never removed). -/
  reqs : List LockReq
  /-- The `chatLocks` map: per key, the rid whose completion is the stored tail. -/
  locks : List (String × Nat)
deriving DecidableEq

inductive LockEvent
  | arrive (key : String) (rid : Nat)
  | start (rid : Nat)
  | finish (rid : Nat)
deriving DecidableEq

def findReq (st : LockState) (rid : Nat) : Option LockReq :=
  st.reqs.find? fun r => r.rid == rid

/-- Whether the awaited `previous` promise has resolved: trivially for an
absent predecessor, otherwise when the predecessor request is done. -/
def prevResolved (st : LockState) : Option Nat → Bool
  | none => true
  | some p =>
    match findReq st p with
    | some q => q.status == .done
    | none => false

def setStatus (st : LockState) (rid : Nat) (status : ReqStatus) : LockState :=
  { st with reqs := st.reqs.map fun r => if r.rid = rid then { r with status := status } else r }

def lockStep (st : LockState) : LockEvent → Option LockState
  | .arrive key rid =>
    if st.reqs.any (fun r => r.rid == rid) then none
    else
      some { reqs := st.reqs ++ [{ rid := rid, key := key,
                                   previous := alookup st.locks key, status := .waiting }],
             locks := aset st.locks key rid }
  | .start rid =>
    match findReq st rid with
    | some r =>
      if r.status = .waiting ∧ prevResolved st r.previous then some (setStatus st rid .running)
      else none
    | none => none
  | .finish rid =>
    match findReq st rid with
    | some r =>
      if r.status = .running then
        let st1 := setStatus st rid .done
        some { st1 with locks := if alookup st.locks r.key = some rid
                                 then aerase st.locks r.key else st.locks }
      else none
    | none => none

def lockInit : LockState := { reqs := [], locks := [] }

def lockRun (events : List LockEvent) : Option LockState :=
  events.foldlM lockStep lockInit

/-- Inductive invariant of the lock model (established by every reachable
state).  The components:
rids are unique; the `chatLocks` map has unique keys; every `previous` link
points to an earlier request of the same key; `previous` links are injective;
a live map entry names an existing, not-yet-done request of that key whose
completion no later request has consumed as its `previous`; an absent map
entry means every request of that key is done; a running request's awaited
`previous` has resolved; and per key at most one not-yet-done request has a
resolved `previous` (the single-flight token). -/
def LockInv (st : LockState) : Prop :=
  (st.reqs.map LockReq.rid).Nodup ∧
  (st.locks.map Prod.fst).Nodup ∧
  (∀ i : Nat, ∀ hi : i < st.reqs.length, ∀ p : Nat,
    (st.reqs.get ⟨i, hi⟩).previous = some p →
    ∃ j : Nat, ∃ hj : j < st.reqs.length, j < i ∧
      (st.reqs.get ⟨j, hj⟩).rid = p ∧
      (st.reqs.get ⟨j, hj⟩).key = (st.reqs.get ⟨i, hi⟩).key) ∧
  (∀ r1 ∈ st.reqs, ∀ r2 ∈ st.reqs, ∀ p : Nat,
    r1.previous = some p → r2.previous = some p → r1 = r2) ∧
  (∀ key t, alookup st.locks key = some t →
    ∃ q ∈ st.reqs, q.rid = t ∧ q.key = key ∧ q.status ≠ .done ∧
      ∀ x ∈ st.reqs, x.previous ≠ some t) ∧
  (∀ key, alookup st.locks key = none → ∀ q ∈ st.reqs, q.key = key → q.status = .done) ∧
  (∀ r ∈ st.reqs, r.status = .running → prevResolved st r.previous = true) ∧
  (∀ r1 ∈ st.reqs, ∀ r2 ∈ st.reqs, r1.key = r2.key →
    r1.status ≠ .done → r2.status ≠ .done →
    prevResolved st r1.previous = true → prevResolved st r2.previous = true → r1 = r2)

/-! Invariant predicates used by the session-store theorems. -/

/-- Histories producible by `appendExchange` alone: a sequence of
user/assistant pairs. -/
inductive IsExchangeList : List Message → Prop
  | nil : IsExchangeList []
  | pair (u a : String) (rest : List Message) (h : IsExchangeList rest) :
      IsExchangeList ({ role := .user, content := u } ::
                      { role := .assistant, content := a } :: rest)

/-- Every stored override value is already trimmed and non-blank (what
`setModel`/`setReasoningEffort` guarantee). -/
def OverridesInv (o : Overrides) : Prop :=
  (∀ v, o.codex = some v → jsTrim v = v ∧ v ≠ "") ∧
  (∀ v, o.claude = some v → jsTrim v = v ∧ v ≠ "")

def SessionInv (cfg : StoreCfg) (s : ChatSession) : Prop :=
  s.history.length ≤ cfg.maxHistory ∧ IsExchangeList s.history ∧
  OverridesInv s.modelOverrides ∧ OverridesInv s.reasoningEffortOverrides

def StoreInv (cfg : StoreCfg) (st : SessionStore) : Prop :=
  (st.sessions.map Prod.fst).Nodup ∧ ∀ e ∈ st.sessions, SessionInv cfg e.2

/-! Lemmas about trimming. -/

theorem trimChars_eq_rdropWhile (l : List Char) :
    trimChars l = List.rdropWhile jsWs (l.dropWhile jsWs) := rfl

theorem trimChars_idem (l : List Char) : trimChars (trimChars l) = trimChars l := by
  rw [trimChars_eq_rdropWhile, trimChars_eq_rdropWhile]
  have h1 : (List.rdropWhile jsWs (l.dropWhile jsWs)).dropWhile jsWs =
      List.rdropWhile jsWs (l.dropWhile jsWs) := by
    rw [List.dropWhile_eq_self_iff]
    intro hl
    obtain ⟨t, ht⟩ := List.rdropWhile_prefix jsWs (l.dropWhile jsWs)
    have h0 : 0 < (l.dropWhile jsWs).length := by
      rw [← ht, List.length_append]
      exact Nat.lt_of_lt_of_le hl (Nat.le_add_right _ _)
    have hy := List.dropWhile_get_zero_not jsWs l h0
    have h2 : (List.rdropWhile jsWs (l.dropWhile jsWs) ++ t).get ⟨0, by rw [ht]; exact h0⟩ =
        (List.rdropWhile jsWs (l.dropWhile jsWs)).get ⟨0, hl⟩ := by
      rw [List.get_eq_getElem, List.get_eq_getElem]
      exact List.getElem_append_left hl
    rw [← h2]
    have h3 : ∀ (u : List Char) (hu : 0 < u.length), u = l.dropWhile jsWs →
        ¬ jsWs (u.get ⟨0, hu⟩) = true := by
      intro u hu hv
      subst hv
      exact hy
    exact h3 _ _ ht
  rw [h1, List.rdropWhile_idempotent]

theorem jsTrim_mk (l : List Char) : jsTrim (String.mk l) = String.mk (trimChars l) := rfl

theorem jsTrim_idem (s : String) : jsTrim (jsTrim s) = jsTrim s := by
  cases s with
  | mk l => simp only [jsTrim_mk, trimChars_idem]

theorem mk_eq_empty_iff (l : List Char) : String.mk l = "" ↔ l = [] := by
  constructor
  · intro h
    exact congrArg String.data h
  · intro h
    rw [h]

theorem jsTrim_eq_empty_iff (s : String) : jsTrim s = "" ↔ trimChars s.data = [] := by
  cases s with
  | mk l => exact mk_eq_empty_iff (trimChars l)

/-! Coalescer lemmas. -/

theorem coalInv_init (cfg : CoalCfg) (n0 : Nat) : coalInv cfg (CoalState.init n0) := by
  refine ⟨List.chain'_nil, ?_, ?_, fun _ => rfl, fun h => absurd rfl h⟩ <;> simp [CoalState.init]

theorem coalInv_drain (cfg : CoalCfg) (s : CoalState) (text : String) (a b c : Nat)
    (h : coalInv cfg s) : coalInv cfg (coalDrain cfg s text a b c) := by
  obtain ⟨hchain, hlast, hne, hempty, hnonempty⟩ := h
  unfold coalDrain
  by_cases hskip : text = "" ∨ text = s.lastApplied
  · rw [if_pos hskip]
    exact ⟨hchain, hlast, hne, hempty, hnonempty⟩
  · rw [if_neg hskip]
    push_neg at hskip
    obtain ⟨htext, hdup⟩ := hskip
    set now0 := s.now + a with hnow0
    set tpub := if now0 < s.lastEditAt + cfg.intervalMs
                then s.lastEditAt + cfg.intervalMs + c else now0 with htpub
    have hgap : s.lastEditAt + cfg.intervalMs ≤ tpub := by
      rw [htpub]
      split
      · exact Nat.le_add_right _ _
      · omega
    refine ⟨?_, ?_, ?_, fun hc => absurd hc htext, fun _ => ?_⟩
    · rw [List.chain'_append]
      refine ⟨hchain, List.chain'_singleton _, ?_⟩
      intro x hx y hy
      simp only [List.head?_cons, Option.mem_def, Option.some.injEq] at hy
      subst hy
      have := hlast x hx
      simp only
      omega
    · intro p hp
      rw [List.getLast?_concat] at hp
      simp only [Option.mem_def, Option.some.injEq] at hp
      subst hp
      simp only
      omega
    · intro p hp
      rw [List.mem_append] at hp
      rcases hp with hp | hp
      · exact hne p hp
      · simp only [List.mem_singleton] at hp
        subst hp
        exact htext
    · simp only [List.getLast?_concat]
      rfl

theorem coalInv_step (cfg : CoalCfg) (s : CoalState) (op : CoalOp)
    (h : coalInv cfg s) : coalInv cfg (coalStep cfg s op) := by
  have hpend : ∀ text, coalInv cfg { s with pending := some text } := by
    intro text
    exact h
  cases op with
  | queue text a b c => exact coalInv_drain cfg _ text a b c (hpend text)
  | flush text a b c => exact coalInv_drain cfg _ text a b c (hpend text)

theorem coalInv_run (cfg : CoalCfg) (n0 : Nat) (ops : List CoalOp) :
    coalInv cfg (coalRun cfg n0 ops) := by
  rw [coalRun]
  have h : ∀ (l : List CoalOp) (s : CoalState), coalInv cfg s →
      coalInv cfg (l.foldl (coalStep cfg) s) := by
    intro l
    induction l with
    | nil => exact fun s hs => hs
    | cons op rest ih => exact fun s hs => ih _ (coalInv_step cfg s op hs)
  exact h ops _ (coalInv_init cfg n0)

/-- C8: for every sequence of queue and flush calls to the coalescer (with any
timings), no two consecutive invocations of the publish callback occur within
less than the configured minimum interval: each publish happens at or after
the point `intervalMs` after the previous successful publish. -/
theorem coalescer_min_interval (cfg : CoalCfg) (n0 : Nat) (ops : List CoalOp) :
    List.Chain' (fun p q : String × Nat => p.2 + cfg.intervalMs ≤ q.2)
      (coalRun cfg n0 ops).publishes :=
  (coalInv_run cfg n0 ops).1

/-- C10: for every sequence of queue and flush calls to the coalescer, the
publish callback is never invoked with an empty string — empty pending values
are skipped by the drain loop. -/
theorem coalescer_never_publishes_empty (cfg : CoalCfg) (n0 : Nat) (ops : List CoalOp)
    (p : String × Nat) (hp : p ∈ (coalRun cfg n0 ops).publishes) : p.1 ≠ "" :=
  (coalInv_run cfg n0 ops).2.2.1 p hp

/-- Witness for C10 on a concrete run: `queue "a"` publishes `("a", 900)`. -/
theorem coalescer_never_publishes_empty_witness :
    ("a", 900) ∈ (coalRun ⟨900⟩ 0 [CoalOp.queue "a" 0 0 0]).publishes ∧
    ("a", 900).1 ≠ "" :=
  ⟨by decide, coalescer_never_publishes_empty ⟨900⟩ 0 [CoalOp.queue "a" 0 0 0] ("a", 900) (by decide)⟩

/-! Interleaved-coalescer lemmas. -/

theorem coalLoopHead_none (intervalMs : Nat) (s : CoalAsync) (h : s.pending = none) :
    coalLoopHead intervalMs s =
      { s with processing := false, drain := none,
               flushReturned := s.flushReturned || s.flushWaiting, flushWaiting := false } := by
  simp only [coalLoopHead, h]

theorem coalLoopHead_skip (intervalMs : Nat) (s : CoalAsync) (text : String)
    (h : s.pending = some text) (hskip : text = "" ∨ text = s.lastApplied) :
    coalLoopHead intervalMs s =
      { s with pending := none, processing := false, drain := none,
               flushReturned := s.flushReturned || s.flushWaiting, flushWaiting := false } := by
  simp only [coalLoopHead, h]
  rw [if_pos hskip]

theorem coalLoopHead_sleep (intervalMs : Nat) (s : CoalAsync) (text : String)
    (h : s.pending = some text) (hskip : ¬(text = "" ∨ text = s.lastApplied))
    (hw : (intervalMs : Int) - ((s.now : Int) - (s.lastEditAt : Int)) > 0) :
    coalLoopHead intervalMs s =
      { s with pending := none,
               drain := some (.sleeping text (s.lastEditAt + intervalMs)) } := by
  simp only [coalLoopHead, h]
  rw [if_neg hskip, if_pos hw]

theorem coalLoopHead_edit (intervalMs : Nat) (s : CoalAsync) (text : String)
    (h : s.pending = some text) (hskip : ¬(text = "" ∨ text = s.lastApplied))
    (hw : ¬((intervalMs : Int) - ((s.now : Int) - (s.lastEditAt : Int)) > 0)) :
    coalLoopHead intervalMs s =
      { s with pending := none, published := s.published ++ [text],
               drain := some (.editing text) } := by
  simp only [coalLoopHead, h]
  rw [if_neg hskip, if_neg hw]

/-- With the drain coroutine idle, resume events are not enabled: a run of
only `wake`/`editDone` events from such a state goes nowhere. -/
theorem coalAsync_resume_stuck (intervalMs : Nat) :
    ∀ (post : List CoalEv), (∀ e ∈ post, e.isResume = true) →
    ∀ (r s' : CoalAsync), r.drain = none →
    post.foldlM (coalAsyncStep intervalMs) r = some s' → s' = r := by
  intro post
  induction post with
  | nil =>
    intro _ r s' _ h
    have hr : r = s' := by simpa using h
    exact hr.symm
  | cons e rest ih =>
    intro hres r s' hdr h
    rw [List.foldlM_cons] at h
    have hnone : coalAsyncStep intervalMs r e = none := by
      have he := hres e (List.mem_cons_self e rest)
      cases e with
      | queue t => simp [CoalEv.isResume] at he
      | flush t => simp [CoalEv.isResume] at he
      | wake dt => simp [coalAsyncStep, hdr]
      | editDone dt => simp [coalAsyncStep, hdr]
    rw [hnone] at h
    exact absurd h (by simp)

/-- Once a `flush` has started a drain on its own value `v`, any schedule of
resume events that reaches a state where the flush promise has resolved has
published exactly `base ++ [v]`: the drain publishes `v` (at `wake` or
immediately) and only then exits the loop, resolving the flush. -/
theorem coalAsync_flush_drain (intervalMs : Nat) (v : String) (base : List String) :
    ∀ (post : List CoalEv), (∀ e ∈ post, e.isResume = true) →
    ∀ (r s' : CoalAsync),
    ((r.flushReturned = true ∧ r.drain = none ∧ r.published = base ++ [v]) ∨
      (r.flushReturned = false ∧ r.flushWaiting = true ∧ r.pending = none ∧
        ((∃ w, r.drain = some (.sleeping v w)) ∧ r.published = base ∨
         r.drain = some (.editing v) ∧ r.published = base ++ [v]))) →
    post.foldlM (coalAsyncStep intervalMs) r = some s' →
    s'.flushReturned = true → s'.published = base ++ [v] := by
  intro post
  induction post with
  | nil =>
    intro _ r s' hinv h hret
    have hr : r = s' := by simpa using h
    subst hr
    rcases hinv with ⟨_, _, hp⟩ | ⟨hfr, _⟩
    · exact hp
    · rw [hfr] at hret
      cases hret
  | cons e rest ih =>
    intro hres r s' hinv h hret
    rw [List.foldlM_cons] at h
    cases hstep : coalAsyncStep intervalMs r e with
    | none =>
      rw [hstep] at h
      exact absurd h (by simp)
    | some r1 =>
      rw [hstep] at h
      have h' : rest.foldlM (coalAsyncStep intervalMs) r1 = some s' := by simpa using h
      refine ih (fun e2 he2 => hres e2 (List.mem_cons_of_mem _ he2)) r1 s' ?_ h' hret
      have he := hres e (List.mem_cons_self e rest)
      rcases hinv with ⟨hfr, hdr, hp⟩ | ⟨hfr, hfw, hpend, hcase⟩
      · cases e with
        | queue t => simp [CoalEv.isResume] at he
        | flush t => simp [CoalEv.isResume] at he
        | wake dt => simp [coalAsyncStep, hdr] at hstep
        | editDone dt => simp [coalAsyncStep, hdr] at hstep
      · rcases hcase with ⟨⟨w, hdr⟩, hp⟩ | ⟨hdr, hp⟩
        · cases e with
          | queue t => simp [CoalEv.isResume] at he
          | flush t => simp [CoalEv.isResume] at he
          | editDone dt => simp [coalAsyncStep, hdr] at hstep
          | wake dt =>
            simp only [coalAsyncStep, hdr] at hstep
            by_cases hw : w ≤ r.now + dt
            · rw [if_pos hw] at hstep
              have hr1 := Option.some.inj hstep
              rw [← hr1]
              refine Or.inr ⟨hfr, hfw, hpend, Or.inr ⟨rfl, ?_⟩⟩
              show r.published ++ [v] = base ++ [v]
              rw [hp]
            · rw [if_neg hw] at hstep
              cases hstep
        · cases e with
          | queue t => simp [CoalEv.isResume] at he
          | flush t => simp [CoalEv.isResume] at he
          | wake dt => simp [coalAsyncStep, hdr] at hstep
          | editDone dt =>
            simp only [coalAsyncStep, hdr] at hstep
            have hLH := coalLoopHead_none intervalMs
              { r with now := r.now + dt, lastApplied := v, lastEditAt := r.now + dt,
                       drain := none } hpend
            rw [hLH] at hstep
            have hr1 := Option.some.inj hstep
            rw [← hr1]
            refine Or.inl ⟨?_, rfl, ?_⟩
            · show (r.flushReturned || r.flushWaiting) = true
              rw [hfr, hfw]
              decide
            · show r.published = base ++ [v]
              exact hp

/-- C2 (amended): when `flush(value)` is called with no drain loop in flight,
the drain runs inside the flush call: if `value` is non-empty and differs
from the most recently applied value, every schedule on which flush's promise
has resolved has published exactly the old trace followed by `value` — the
publish callback's most recent invocation when flush returns carries `value`;
an empty or identical `value` fires no new publish (the drain loop skips it)
and flush resolves with the trace unchanged.  (When a drain loop is in
flight, `run()`'s `processing` guard makes flush return without awaiting it —
see the counterexample.) -/
theorem coalescer_flush_publish_guarantee
    (intervalMs n0 : Nat) (pre post : List CoalEv) (v : String) (s s' : CoalAsync)
    (hpre : coalAsyncRun intervalMs n0 pre = some s)
    (hq : s.processing = false) (hfr : s.flushReturned = false)
    (hpost : ∀ e ∈ post, e.isResume = true)
    (hrun : coalAsyncRun intervalMs n0 (pre ++ .flush v :: post) = some s')
    (hret : s'.flushReturned = true) :
    (v ≠ "" → v ≠ s.lastApplied → s'.published = s.published ++ [v]) ∧
    ((v = "" ∨ v = s.lastApplied) → s'.published = s.published) := by
  rw [coalAsyncRun, List.foldlM_append] at hrun
  rw [coalAsyncRun] at hpre
  rw [hpre] at hrun
  have hrun2 : (CoalEv.flush v :: post).foldlM (coalAsyncStep intervalMs) s = some s' := by
    simpa using hrun
  rw [List.foldlM_cons] at hrun2
  have hstepflush : coalAsyncStep intervalMs s (.flush v) =
      some (coalLoopHead intervalMs
        { s with pending := some v, processing := true, flushWaiting := true }) := by
    rw [coalAsyncStep]
    rw [if_neg (by simp [hq])]
  rw [hstepflush] at hrun2
  have hrun3 : post.foldlM (coalAsyncStep intervalMs)
      (coalLoopHead intervalMs
        { s with pending := some v, processing := true, flushWaiting := true }) =
      some s' := by
    simpa using hrun2
  by_cases hskip : v = "" ∨ v = s.lastApplied
  · have hLH : coalLoopHead intervalMs
        { s with pending := some v, processing := true, flushWaiting := true } =
        { s with pending := none, processing := false, drain := none,
                 flushReturned := s.flushReturned || true, flushWaiting := false } :=
      coalLoopHead_skip intervalMs _ v rfl hskip
    rw [hLH] at hrun3
    have hstuck := coalAsync_resume_stuck intervalMs post hpost
      { s with pending := none, processing := false, drain := none,
               flushReturned := s.flushReturned || true, flushWaiting := false }
      s' rfl hrun3
    constructor
    · intro h1 h2
      rcases hskip with h | h
      · exact absurd h h1
      · exact absurd h h2
    · intro _
      rw [hstuck]
  · have hmain : s'.published = s.published ++ [v] := by
      by_cases hw : (intervalMs : Int) - ((s.now : Int) - (s.lastEditAt : Int)) > 0
      · have hLH : coalLoopHead intervalMs
            { s with pending := some v, processing := true, flushWaiting := true } =
            { s with pending := none, processing := true, flushWaiting := true,
                     drain := some (.sleeping v (s.lastEditAt + intervalMs)) } :=
          coalLoopHead_sleep intervalMs _ v rfl hskip hw
        rw [hLH] at hrun3
        exact coalAsync_flush_drain intervalMs v s.published post hpost
          { s with pending := none, processing := true, flushWaiting := true,
                   drain := some (.sleeping v (s.lastEditAt + intervalMs)) }
          s'
          (Or.inr ⟨hfr, rfl, rfl, Or.inl ⟨⟨s.lastEditAt + intervalMs, rfl⟩, rfl⟩⟩)
          hrun3 hret
      · have hLH : coalLoopHead intervalMs
            { s with pending := some v, processing := true, flushWaiting := true } =
            { s with pending := none, processing := true, flushWaiting := true,
                     published := s.published ++ [v], drain := some (.editing v) } :=
          coalLoopHead_edit intervalMs _ v rfl hskip hw
        rw [hLH] at hrun3
        exact coalAsync_flush_drain intervalMs v s.published post hpost
          { s with pending := none, processing := true, flushWaiting := true,
                   published := s.published ++ [v], drain := some (.editing v) }
          s'
          (Or.inr ⟨hfr, rfl, rfl, Or.inr ⟨rfl, rfl⟩⟩) hrun3 hret
    refine ⟨fun _ _ => hmain, fun hc => absurd hc hskip⟩

/-- Witness for C2's amended theorem: `flush "b"` from the quiescent initial
state (no drain in flight) throttles, publishes `"b"`, and only then
resolves; when it has returned the publish trace is exactly `["b"]`. -/
theorem coalescer_flush_publish_guarantee_witness :
    (CoalAsync.init 0).processing = false ∧
    coalAsyncRun 100 0 ([] ++ .flush "b" :: [.wake 150, .editDone 7]) =
      some { pending := none, lastApplied := "b", lastEditAt := 157, processing := false,
             drain := none, published := ["b"], flushReturned := true,
             flushWaiting := false, now := 157 } ∧
    ({ pending := none, lastApplied := "b", lastEditAt := 157, processing := false,
       drain := none, published := ["b"], flushReturned := true,
       flushWaiting := false, now := 157 } : CoalAsync).published =
      (CoalAsync.init 0).published ++ ["b"] :=
  ⟨rfl, by decide,
   (coalescer_flush_publish_guarantee 100 0 [] [.wake 150, .editDone 7] "b"
      (CoalAsync.init 0)
      { pending := none, lastApplied := "b", lastEditAt := 157, processing := false,
        drain := none, published := ["b"], flushReturned := true,
        flushWaiting := false, now := 157 }
      rfl rfl rfl (by decide) (by decide) rfl).1 (by decide) (by decide)⟩

/-- C2 counterexample: with a drain loop in flight, `flush` returns before its
value is published.  `queue "a"` starts the drain, which parks in the
throttle sleep; `flush "b"` then only sets `pending` — `run()`'s
`if (processing) return` fires and the flush promise resolves — so flush has
returned while the publish callback has never been invoked at all (trace
`[]`), let alone with `"b"`: "the final value is applied before flush
returns" fails.  (The drain would publish `"b"` only later, after its timer
fires.) -/
theorem coalescer_flush_inflight_cex :
    coalAsyncRun 100 0 [.queue "a", .flush "b"] =
      some { pending := some "b", lastApplied := "", lastEditAt := 0, processing := true,
             drain := some (.sleeping "a" 100), published := [], flushReturned := true,
             flushWaiting := false, now := 0 } := by
  decide

/-! Executor lemmas. -/

theorem splitNl_nil : splitNl [] = [[]] := rfl

theorem splitNl_cons (c : Char) (l : List Char) :
    splitNl (c :: l) = splitStep c (splitNl l) := rfl

theorem splitNl_ne_nil (l : List Char) : splitNl l ≠ [] := by
  induction l with
  | nil => simp [splitNl_nil]
  | cons c rest ih =>
    rw [splitNl_cons]
    by_cases hc : c = '\n'
    · simp [splitStep, hc]
    · simp only [splitStep, if_neg hc]
      cases h : splitNl rest with
      | nil => exact absurd h ih
      | cons p ps => simp

theorem lastPart_eq_getLast? (ps : List (List Char)) : lastPart ps = ps.getLast?.getD [] := by
  rw [lastPart, List.getLastD_eq_getLast?]

theorem lastPart_cons_ne_nil (p : List Char) (ps : List (List Char)) (h : ps ≠ []) :
    lastPart (p :: ps) = lastPart ps := by
  rw [lastPart_eq_getLast?, lastPart_eq_getLast?]
  have h2 : ([p] ++ ps).getLast? = ps.getLast? := List.getLast?_append_of_ne_nil [p] h
  simp only [List.singleton_append] at h2
  rw [h2]

theorem lastPart_append_ne_nil (xs ys : List (List Char)) (h : ys ≠ []) :
    lastPart (xs ++ ys) = lastPart ys := by
  rw [lastPart_eq_getLast?, lastPart_eq_getLast?, List.getLast?_append_of_ne_nil xs h]

theorem lastPart_singleton (p : List Char) : lastPart [p] = p := rfl

theorem mapHead_nil_append (X : List (List Char)) : mapHead (fun x => [] ++ x) X = X := by
  cases X <;> simp [mapHead]

theorem mapHead_id (X : List (List Char)) : mapHead (fun x => x) X = X := by
  cases X <;> simp [mapHead]

theorem mapHead_ne_nil (f : List Char → List Char) (X : List (List Char)) (h : X ≠ []) :
    mapHead f X ≠ [] := by
  cases X with
  | nil => exact absurd rfl h
  | cons x xr => simp [mapHead]

theorem foldr_splitStep_glue (a : List Char) :
    ∀ X : List (List Char), X ≠ [] →
      a.foldr splitStep X =
        (splitNl a).dropLast ++ mapHead (fun x => lastPart (splitNl a) ++ x) X := by
  induction a with
  | nil =>
    intro X hX
    simp only [List.foldr_nil, splitNl_nil]
    have hlp : lastPart [([] : List Char)] = [] := rfl
    rw [hlp]
    simp [mapHead_nil_append, mapHead_id]
  | cons c rest ih =>
    intro X hX
    simp only [List.foldr_cons]
    rw [ih X hX, splitNl_cons]
    by_cases hc : c = '\n'
    · simp only [splitStep, if_pos hc]
      cases hp : splitNl rest with
      | nil => exact absurd hp (splitNl_ne_nil rest)
      | cons p ps =>
        rw [lastPart_cons_ne_nil [] (p :: ps) (by simp)]
        simp [List.dropLast_cons₂]
    · simp only [splitStep, if_neg hc]
      cases hp : splitNl rest with
      | nil => exact absurd hp (splitNl_ne_nil rest)
      | cons p ps =>
        cases ps with
        | nil =>
          cases X with
          | nil => exact absurd rfl hX
          | cons x xr =>
            simp [mapHead, lastPart_singleton, List.dropLast_cons₂]
        | cons p2 pr =>
          rw [lastPart_cons_ne_nil (c :: p) (p2 :: pr) (by simp),
              lastPart_cons_ne_nil p (p2 :: pr) (by simp)]
          simp [List.dropLast_cons₂, mapHead]

theorem splitNl_append (a b : List Char) :
    splitNl (a ++ b) =
      (splitNl a).dropLast ++ mapHead (fun x => lastPart (splitNl a) ++ x) (splitNl b) := by
  rw [splitNl, List.foldr_append]
  exact foldr_splitStep_glue a (splitNl b) (splitNl_ne_nil b)

theorem newline_not_mem_lastPart (l : List Char) : '\n' ∉ lastPart (splitNl l) := by
  induction l with
  | nil => simp [splitNl_nil, lastPart]
  | cons c rest ih =>
    rw [splitNl_cons]
    by_cases hc : c = '\n'
    · simp only [splitStep, if_pos hc]
      rw [lastPart_cons_ne_nil [] (splitNl rest) (splitNl_ne_nil rest)]
      exact ih
    · simp only [splitStep, if_neg hc]
      cases hp : splitNl rest with
      | nil => exact absurd hp (splitNl_ne_nil rest)
      | cons p ps =>
        rw [hp] at ih
        cases ps with
        | nil =>
          rw [lastPart_singleton] at ih
          rw [lastPart_singleton]
          intro hm
          rcases List.mem_cons.mp hm with hm | hm
          · exact hc hm.symm
          · exact ih hm
        | cons p2 pr =>
          rw [lastPart_cons_ne_nil p (p2 :: pr) (by simp)] at ih
          rw [lastPart_cons_ne_nil (c :: p) (p2 :: pr) (by simp)]
          exact ih

theorem splitNl_no_newline (l : List Char) (h : '\n' ∉ l) : splitNl l = [l] := by
  induction l with
  | nil => rfl
  | cons c rest ih =>
    have hc : ¬ c = '\n' := fun hcc => h (by rw [hcc]; exact List.mem_cons_self '\n' rest)
    have hr : '\n' ∉ rest := fun hm => h (List.mem_cons_of_mem c hm)
    rw [splitNl_cons, ih hr]
    simp [splitStep, hc]

theorem onData_eq (s : ExecState) (chunk : List Char) :
    onData s chunk =
      { buf := lastPart (splitNl (s.buf ++ chunk)),
        events := (splitNl (s.buf ++ chunk)).dropLast.foldl emitLine s.events } := rfl

theorem onData_comp (s : ExecState) (c1 c2 : List Char) :
    onData (onData s c1) c2 = onData s (c1 ++ c2) := by
  rw [onData_eq, onData_eq, onData_eq]
  have hQ : splitNl (lastPart (splitNl (s.buf ++ c1)) ++ c2) =
      mapHead (fun x => lastPart (splitNl (s.buf ++ c1)) ++ x) (splitNl c2) := by
    rw [splitNl_append, splitNl_no_newline (lastPart (splitNl (s.buf ++ c1)))
      (newline_not_mem_lastPart (s.buf ++ c1))]
    rw [lastPart_singleton]
    rfl
  have hR : splitNl (s.buf ++ (c1 ++ c2)) =
      (splitNl (s.buf ++ c1)).dropLast ++
        mapHead (fun x => lastPart (splitNl (s.buf ++ c1)) ++ x) (splitNl c2) := by
    rw [← List.append_assoc, splitNl_append]
  have hQne : mapHead (fun x => lastPart (splitNl (s.buf ++ c1)) ++ x) (splitNl c2) ≠ [] :=
    mapHead_ne_nil _ _ (splitNl_ne_nil c2)
  simp only [ExecState.mk.injEq]
  constructor
  · rw [hQ, hR, lastPart_append_ne_nil _ _ hQne]
  · rw [hQ, hR, List.dropLast_append_of_ne_nil _ hQne, List.foldl_append]

theorem foldl_onData (chunks : List (List Char)) :
    ∀ s : ExecState, '\n' ∉ s.buf → chunks.foldl onData s = onData s chunks.flatten := by
  induction chunks with
  | nil =>
    intro s hbuf
    rw [List.foldl_nil, List.flatten_nil, onData_eq, List.append_nil,
      splitNl_no_newline s.buf hbuf, lastPart_singleton]
    rfl
  | cons c rest ih =>
    intro s hbuf
    rw [List.foldl_cons, ih (onData s c) ?_, onData_comp, List.flatten_cons]
    rw [onData_eq]
    exact newline_not_mem_lastPart (s.buf ++ c)

theorem trimFilterLines_nil : trimFilterLines [] = [] := rfl

theorem trimFilterLines_cons (x : List Char) (rest : List (List Char)) :
    trimFilterLines (x :: rest) =
      (if trimChars x = [] then [] else [trimChars x]) ++ trimFilterLines rest := by
  simp only [trimFilterLines, List.map_cons, List.filter_cons]
  by_cases hx : trimChars x = []
  · simp [List.isEmpty_iff, hx]
  · simp [List.isEmpty_iff, hx]

theorem trimFilterLines_singleton (x : List Char) :
    trimFilterLines [x] = if trimChars x = [] then [] else [trimChars x] := by
  rw [trimFilterLines_cons, trimFilterLines_nil, List.append_nil]

theorem emitLine_eq_append (evs : List (List Char)) (line : List Char) :
    emitLine evs line = evs ++ (if trimChars line = [] then [] else [trimChars line]) := by
  rw [emitLine]
  by_cases hl : trimChars line = []
  · rw [if_pos hl, if_pos hl, List.append_nil]
  · rw [if_neg hl, if_neg hl]

theorem foldl_emitLine (lines : List (List Char)) :
    ∀ evs : List (List Char), lines.foldl emitLine evs = evs ++ trimFilterLines lines := by
  induction lines with
  | nil => intro evs; simp [trimFilterLines]
  | cons x rest ih =>
    intro evs
    rw [List.foldl_cons, ih, trimFilterLines_cons, emitLine_eq_append, List.append_assoc]

theorem trimFilterLines_append (xs ys : List (List Char)) :
    trimFilterLines (xs ++ ys) = trimFilterLines xs ++ trimFilterLines ys := by
  rw [trimFilterLines, trimFilterLines, trimFilterLines, List.map_append, List.filter_append]

/-- C5 (amended): for every chunking of the output stream, the executor
delivers, in order, exactly the whitespace-trimmed non-empty lines of the
concatenated output split on line-feed — the final unterminated part included
(delivered after the stream closes, under the same trim-and-skip-empty
treatment).  In particular delivery is independent of how the output was
chunked (lines are buffered across partial reads). -/
theorem executor_line_delivery (chunks : List (List Char)) :
    execEvents chunks = trimFilterLines (splitNl chunks.flatten) := by
  rw [execEvents, foldl_onData chunks ⟨[], []⟩ (by simp), onData_eq]
  simp only [List.nil_append]
  rw [foldl_emitLine]
  simp only [List.nil_append]
  have hne := splitNl_ne_nil chunks.flatten
  have hsplit : (splitNl chunks.flatten).dropLast ++ [lastPart (splitNl chunks.flatten)] =
      splitNl chunks.flatten := by
    rw [lastPart_eq_getLast?, List.getLast?_eq_getLast _ hne]
    exact List.dropLast_append_getLast hne
  rw [emitLine_eq_append]
  conv_rhs => rw [← hsplit]
  rw [trimFilterLines_append, trimFilterLines_singleton]

/-- C5 counterexample: on the single chunk `"\n x \n"` the executor delivers
one line, `"x"` — the empty first line is skipped and `" x "` is trimmed of
all surrounding whitespace — whereas the claim ("exactly once per complete
output line, trimmed only of the delimiter") predicts the two deliveries
`""` and `" x "`. -/
theorem executor_line_delivery_cex :
    execEvents ["\n x \n".data] = ["x".data] ∧
    specLineEvents ["\n x \n".data] = ["".data, " x ".data] ∧
    (["x".data] : List (List Char)) ≠ ["".data, " x ".data] := by
  refine ⟨by decide, by decide, by decide⟩

/-! Association-list lemmas (the `Map` model). -/

theorem alookup_cons {α : Type} (k0 : String) (v0 : α) (rest : List (String × α))
    (k : String) :
    alookup ((k0, v0) :: rest) k = if k0 = k then some v0 else alookup rest k := rfl

theorem aset_cons {α : Type} (k0 : String) (v0 : α) (rest : List (String × α))
    (k : String) (v : α) :
    aset ((k0, v0) :: rest) k v =
      if k0 = k then (k, v) :: rest else (k0, v0) :: aset rest k v := rfl

theorem aerase_cons {α : Type} (k0 : String) (v0 : α) (rest : List (String × α))
    (k : String) :
    aerase ((k0, v0) :: rest) k =
      if k0 = k then rest else (k0, v0) :: aerase rest k := rfl

theorem alookup_aset_self {α : Type} (l : List (String × α)) (k : String) (v : α) :
    alookup (aset l k v) k = some v := by
  induction l with
  | nil => show alookup [(k, v)] k = some v ; rw [alookup_cons, if_pos rfl]
  | cons e rest ih =>
    obtain ⟨k0, v0⟩ := e
    rw [aset_cons]
    by_cases he : k0 = k
    · rw [if_pos he, alookup_cons, if_pos rfl]
    · rw [if_neg he, alookup_cons, if_neg he, ih]

theorem alookup_aset_ne {α : Type} (l : List (String × α)) (k k' : String) (v : α)
    (h : k' ≠ k) : alookup (aset l k v) k' = alookup l k' := by
  induction l with
  | nil =>
    show alookup [(k, v)] k' = alookup [] k'
    rw [alookup_cons, if_neg (Ne.symm h)]
  | cons e rest ih =>
    obtain ⟨k0, v0⟩ := e
    rw [aset_cons]
    by_cases he : k0 = k
    · rw [if_pos he, alookup_cons, alookup_cons, if_neg (Ne.symm h), he,
        if_neg (fun hk => h hk.symm)]
    · rw [if_neg he, alookup_cons, alookup_cons, ih]

theorem alookup_mem {α : Type} (l : List (String × α)) (k : String) (v : α)
    (h : alookup l k = some v) : (k, v) ∈ l := by
  induction l with
  | nil => exact absurd h (by rw [alookup]; simp)
  | cons e rest ih =>
    obtain ⟨k0, v0⟩ := e
    rw [alookup_cons] at h
    by_cases he : k0 = k
    · rw [if_pos he] at h
      rw [← he, ← Option.some.inj h]
      exact List.mem_cons_self _ _
    · rw [if_neg he] at h
      exact List.mem_cons_of_mem _ (ih h)

theorem aset_forall {α : Type} (l : List (String × α)) (k : String) (v : α)
    (P : String × α → Prop) (hl : ∀ e ∈ l, P e) (hv : P (k, v)) :
    ∀ e ∈ aset l k v, P e := by
  induction l with
  | nil =>
    intro e he
    rw [show aset ([] : List (String × α)) k v = [(k, v)] from rfl,
      List.mem_singleton] at he
    rw [he]; exact hv
  | cons e0 rest ih =>
    obtain ⟨k0, v0⟩ := e0
    intro e he
    rw [aset_cons] at he
    by_cases h0 : k0 = k
    · rw [if_pos h0] at he
      rcases List.mem_cons.mp he with he | he
      · rw [he]; exact hv
      · exact hl e (List.mem_cons_of_mem _ he)
    · rw [if_neg h0] at he
      rcases List.mem_cons.mp he with he | he
      · rw [he]; exact hl _ (List.mem_cons_self _ _)
      · exact ih (fun e' he' => hl e' (List.mem_cons_of_mem _ he')) e he

theorem aerase_sublist {α : Type} (l : List (String × α)) (k : String) :
    (aerase l k).Sublist l := by
  induction l with
  | nil => exact List.Sublist.refl []
  | cons e rest ih =>
    obtain ⟨k0, v0⟩ := e
    rw [aerase_cons]
    by_cases he : k0 = k
    · rw [if_pos he]
      exact List.sublist_cons_self _ rest
    · rw [if_neg he]
      exact List.Sublist.cons₂ _ ih

theorem keys_aset_mem {α : Type} (l : List (String × α)) (k : String) (v : α) :
    ∀ x ∈ (aset l k v).map Prod.fst, x = k ∨ x ∈ l.map Prod.fst := by
  induction l with
  | nil =>
    intro x hx
    rw [show aset ([] : List (String × α)) k v = [(k, v)] from rfl] at hx
    simp only [List.map_cons, List.map_nil, List.mem_singleton] at hx
    exact Or.inl hx
  | cons e rest ih =>
    obtain ⟨k0, v0⟩ := e
    intro x hx
    rw [aset_cons] at hx
    by_cases he : k0 = k
    · rw [if_pos he] at hx
      simp only [List.map_cons, List.mem_cons] at hx ⊢
      rcases hx with hx | hx
      · exact Or.inl hx
      · exact Or.inr (Or.inr hx)
    · rw [if_neg he] at hx
      simp only [List.map_cons, List.mem_cons] at hx ⊢
      rcases hx with hx | hx
      · exact Or.inr (Or.inl hx)
      · rcases ih x hx with h | h
        · exact Or.inl h
        · exact Or.inr (Or.inr h)

theorem keys_aset_nodup {α : Type} (l : List (String × α)) (k : String) (v : α)
    (h : (l.map Prod.fst).Nodup) : ((aset l k v).map Prod.fst).Nodup := by
  induction l with
  | nil =>
    rw [show aset ([] : List (String × α)) k v = [(k, v)] from rfl]
    simp
  | cons e rest ih =>
    obtain ⟨k0, v0⟩ := e
    rw [List.map_cons, List.nodup_cons] at h
    rw [aset_cons]
    by_cases he : k0 = k
    · rw [if_pos he, List.map_cons, List.nodup_cons]
      exact ⟨he ▸ h.1, h.2⟩
    · rw [if_neg he, List.map_cons, List.nodup_cons]
      refine ⟨fun hmem => ?_, ih h.2⟩
      rcases keys_aset_mem rest k v k0 hmem with hk | hk
      · exact he hk
      · exact h.1 hk

theorem keys_aerase_nodup {α : Type} (l : List (String × α)) (k : String)
    (h : (l.map Prod.fst).Nodup) : ((aerase l k).map Prod.fst).Nodup :=
  h.sublist (List.Sublist.map Prod.fst (aerase_sublist l k))

theorem alookup_none_not_mem {α : Type} (l : List (String × α)) (k : String)
    (h : alookup l k = none) : k ∉ l.map Prod.fst := by
  induction l with
  | nil => simp
  | cons e rest ih =>
    obtain ⟨k0, v0⟩ := e
    rw [alookup_cons] at h
    by_cases he : k0 = k
    · rw [if_pos he] at h
      exact absurd h (by simp)
    · rw [if_neg he] at h
      simp only [List.map_cons, List.mem_cons]
      rintro (hk | hk)
      · exact he hk.symm
      · exact ih h hk

theorem aset_append_of_absent {α : Type} (l : List (String × α)) (k : String) (v : α)
    (h : alookup l k = none) : aset l k v = l ++ [(k, v)] := by
  induction l with
  | nil => rfl
  | cons e rest ih =>
    obtain ⟨k0, v0⟩ := e
    rw [alookup_cons] at h
    by_cases he : k0 = k
    · rw [if_pos he] at h
      exact absurd h (by simp)
    · rw [if_neg he] at h
      rw [aset_cons, if_neg he, ih h, List.cons_append]

theorem alookup_map_value {α β : Type} (l : List (String × α)) (f : α → β) (k : String) :
    alookup (l.map fun e => (e.1, f e.2)) k = (alookup l k).map f := by
  induction l with
  | nil => rfl
  | cons e rest ih =>
    obtain ⟨k0, v0⟩ := e
    rw [List.map_cons]
    show alookup ((k0, f v0) :: _) k = _
    rw [alookup_cons, alookup_cons]
    by_cases he : k0 = k
    · rw [if_pos he, if_pos he]
      rfl
    · rw [if_neg he, if_neg he, ih]

/-! Exchange-list and trimming lemmas. -/

theorem IsExchangeList.head_user {l : List Message} (hl : IsExchangeList l) :
    ∀ m, l.head? = some m → m.role = .user := by
  cases hl with
  | nil => intro m hm; exact absurd hm (by simp)
  | pair u a rest h =>
    intro m hm
    rw [List.head?_cons] at hm
    rw [← Option.some.inj hm]

theorem IsExchangeList.append_pair {l : List Message} (hl : IsExchangeList l) (u a : String) :
    IsExchangeList (l ++ [{ role := .user, content := u }, { role := .assistant, content := a }]) := by
  induction hl with
  | nil => exact .pair u a [] .nil
  | pair u0 a0 rest _ ih => exact .pair u0 a0 _ ih

theorem IsExchangeList.roles {l : List Message} (hl : IsExchangeList l) :
    ∀ m ∈ l, m.role = .user ∨ m.role = .assistant := by
  induction hl with
  | nil => intro m hm; exact absurd hm (by simp)
  | pair u a rest _ ih =>
    intro m hm
    rcases List.mem_cons.mp hm with hm | hm
    · exact Or.inl (by rw [hm])
    · rcases List.mem_cons.mp hm with hm | hm
      · exact Or.inr (by rw [hm])
      · exact ih m hm

theorem exch_dropLeadingAssistant_drop {l : List Message} (hl : IsExchangeList l) :
    ∀ k, IsExchangeList (dropLeadingAssistant (l.drop k)) := by
  induction hl with
  | nil =>
    intro k
    rw [List.drop_nil]
    exact .nil
  | pair u a rest hrest ih =>
    intro k
    match k with
    | 0 =>
      rw [List.drop_zero, dropLeadingAssistant]
      rw [if_neg (by simp)]
      exact .pair u a rest hrest
    | 1 =>
      show IsExchangeList (dropLeadingAssistant ({ role := Role.assistant, content := a } :: rest))
      rw [dropLeadingAssistant, if_pos rfl]
      exact hrest
    | (k + 2) =>
      show IsExchangeList (dropLeadingAssistant (rest.drop k))
      exact ih k

theorem dropLeadingAssistant_length_le (l : List Message) :
    (dropLeadingAssistant l).length ≤ l.length := by
  cases l with
  | nil => exact Nat.le_refl 0
  | cons m rest =>
    rw [dropLeadingAssistant]
    by_cases hm : m.role = .assistant
    · rw [if_pos hm]
      exact Nat.le_succ _
    · rw [if_neg hm]

theorem pushExchange_isExchangeList {h : List Message} (hl : IsExchangeList h) (u a : String) :
    IsExchangeList (pushExchange h u a) :=
  hl.append_pair u a

theorem appendTrim_spec (maxHistory : Nat) (h : List Message) (u a : String)
    (hmax : 0 < maxHistory) (hl : IsExchangeList h) :
    IsExchangeList (appendTrim maxHistory h u a) ∧
      (appendTrim maxHistory h u a).length ≤ maxHistory := by
  rw [appendTrim]
  have hp : IsExchangeList (pushExchange h u a) := pushExchange_isExchangeList hl u a
  by_cases hlen : (pushExchange h u a).length > maxHistory
  · rw [if_pos hlen]
    rw [jsSliceLast, if_neg (Nat.pos_iff_ne_zero.mp hmax)]
    constructor
    · exact exch_dropLeadingAssistant_drop hp _
    · calc (dropLeadingAssistant
            ((pushExchange h u a).drop ((pushExchange h u a).length - maxHistory))).length
          ≤ ((pushExchange h u a).drop ((pushExchange h u a).length - maxHistory)).length :=
            dropLeadingAssistant_length_le _
        _ ≤ maxHistory := by
            rw [List.length_drop]
            omega
  · rw [if_neg hlen]
    exact ⟨hp, Nat.le_of_not_lt hlen⟩

/-! Override and session invariant lemmas. -/

theorem overridesInv_empty : OverridesInv {} :=
  ⟨fun v hv => absurd hv (by simp), fun v hv => absurd hv (by simp)⟩

theorem setOverride_inv (o : Overrides) (p : ProviderName) (v : Option String)
    (ho : OverridesInv o) : OverridesInv (setOverride o p v) := by
  have hset : ∀ w : Option String,
      (∀ s, w = some s → jsTrim s = s ∧ s ≠ "") → OverridesInv (o.set p w) := by
    intro w hw
    cases p with
    | codex => exact ⟨fun s hs => hw s hs, fun s hs => ho.2 s hs⟩
    | claude => exact ⟨fun s hs => ho.1 s hs, fun s hs => hw s hs⟩
  cases v with
  | none => exact hset none (fun s hs => absurd hs (by simp))
  | some m =>
    show OverridesInv (if jsTrim m = "" then o.set p none else o.set p (some (jsTrim m)))
    by_cases hm : jsTrim m = ""
    · rw [if_pos hm]
      exact hset none (fun s hs => absurd hs (by simp))
    · rw [if_neg hm]
      refine hset (some (jsTrim m)) (fun s hs => ?_)
      rw [← Option.some.inj hs]
      exact ⟨jsTrim_idem m, fun hc => hm hc⟩

theorem sessionInv_fresh (cfg : StoreCfg) :
    SessionInv cfg { provider := cfg.defaultProvider, history := [],
                     modelOverrides := {}, reasoningEffortOverrides := {} } :=
  ⟨Nat.zero_le _, .nil, overridesInv_empty, overridesInv_empty⟩

theorem getOrCreate_sessionInv (cfg : StoreCfg) (st : SessionStore) (key : String)
    (h : StoreInv cfg st) : SessionInv cfg (getOrCreate cfg st key).2 := by
  rw [getOrCreate]
  cases hl : alookup st.sessions key with
  | none => exact sessionInv_fresh cfg
  | some s => exact h.2 (key, s) (alookup_mem st.sessions key s hl)

theorem getOrCreate_storeInv (cfg : StoreCfg) (st : SessionStore) (key : String)
    (h : StoreInv cfg st) : StoreInv cfg (getOrCreate cfg st key).1 := by
  rw [getOrCreate]
  cases hl : alookup st.sessions key with
  | none =>
    exact ⟨keys_aset_nodup _ _ _ h.1,
      aset_forall _ _ _ _ h.2 (sessionInv_fresh cfg)⟩
  | some s => exact h

theorem storeInv_aset_after_getOrCreate (cfg : StoreCfg) (st : SessionStore) (key : String)
    (s' : ChatSession) (h : StoreInv cfg st) (hs' : SessionInv cfg s') :
    StoreInv cfg ⟨aset (getOrCreate cfg st key).1.sessions key s'⟩ := by
  have h1 := getOrCreate_storeInv cfg st key h
  exact ⟨keys_aset_nodup _ _ _ h1.1, aset_forall _ _ _ _ h1.2 hs'⟩

theorem storeInv_applyOp (cfg : StoreCfg) (st : SessionStore) (op : StoreOp)
    (hmax : 0 < cfg.maxHistory) (h : StoreInv cfg st) : StoreInv cfg (applyOp cfg st op) := by
  cases op with
  | touch key => exact getOrCreate_storeInv cfg st key h
  | setProvider key p =>
    rw [applyOp]
    have hs := getOrCreate_sessionInv cfg st key h
    exact storeInv_aset_after_getOrCreate cfg st key _ h
      ⟨hs.1, hs.2.1, hs.2.2.1, hs.2.2.2⟩
  | reset key =>
    rw [applyOp]
    refine ⟨keys_aerase_nodup _ _ h.1, fun e he => h.2 e ?_⟩
    exact (aerase_sublist st.sessions key).mem he
  | setModel key p m =>
    rw [applyOp]
    have hs := getOrCreate_sessionInv cfg st key h
    exact storeInv_aset_after_getOrCreate cfg st key _ h
      ⟨hs.1, hs.2.1, setOverride_inv _ p m hs.2.2.1, hs.2.2.2⟩
  | setEffort key p e =>
    rw [applyOp]
    have hs := getOrCreate_sessionInv cfg st key h
    exact storeInv_aset_after_getOrCreate cfg st key _ h
      ⟨hs.1, hs.2.1, hs.2.2.1, setOverride_inv _ p e hs.2.2.2⟩
  | appendExchange key u a =>
    rw [applyOp]
    have hs := getOrCreate_sessionInv cfg st key h
    have hat := appendTrim_spec cfg.maxHistory _ u a hmax hs.2.1
    exact storeInv_aset_after_getOrCreate cfg st key _ h
      ⟨hat.2, hat.1, hs.2.2.1, hs.2.2.2⟩

theorem storeInv_empty (cfg : StoreCfg) : StoreInv cfg emptyStore :=
  ⟨List.nodup_nil, fun e he => absurd he (by simp [emptyStore])⟩

theorem storeInv_runOps (cfg : StoreCfg) (ops : List StoreOp) (hmax : 0 < cfg.maxHistory) :
    StoreInv cfg (runOps cfg ops) := by
  rw [runOps]
  have h : ∀ (l : List StoreOp) (st : SessionStore), StoreInv cfg st →
      StoreInv cfg (l.foldl (applyOp cfg) st) := by
    intro l
    induction l with
    | nil => exact fun st hst => hst
    | cons op rest ih => exact fun st hst => ih _ (storeInv_applyOp cfg st op hmax hst)
  exact h ops _ (storeInv_empty cfg)

theorem getOrCreate_some (cfg : StoreCfg) (st : SessionStore) (key : String) (s : ChatSession)
    (h : alookup st.sessions key = some s) : getOrCreate cfg st key = (st, s) := by
  simp only [getOrCreate, h]

theorem getOrCreate_none (cfg : StoreCfg) (st : SessionStore) (key : String)
    (h : alookup st.sessions key = none) :
    getOrCreate cfg st key =
      (⟨aset st.sessions key
          { provider := cfg.defaultProvider, history := [],
            modelOverrides := {}, reasoningEffortOverrides := {} }⟩,
        { provider := cfg.defaultProvider, history := [],
          modelOverrides := {}, reasoningEffortOverrides := {} }) := by
  simp only [getOrCreate, h]

/-- C1 (amended): for every store state reachable through the store's
operations from a fresh empty store (no persisted file), with a positive
`maxHistory` (the configuration enforces 2–200), every session's history has
length at most `maxHistory` and, whenever non-empty, begins with a
user-role message.  In particular this holds after every `appendExchange`. -/
theorem sessionstore_history_invariant (cfg : StoreCfg) (ops : List StoreOp) (key : String)
    (s : ChatSession) (hmax : 0 < cfg.maxHistory)
    (hs : alookup (runOps cfg ops).sessions key = some s) :
    s.history.length ≤ cfg.maxHistory ∧
      ∀ m, s.history.head? = some m → m.role = .user := by
  have hinv := storeInv_runOps cfg ops hmax
  have hsess := hinv.2 (key, s) (alookup_mem _ _ _ hs)
  exact ⟨hsess.1, hsess.2.1.head_user⟩

/-- Witness for C1's amended theorem: two exchanges with `maxHistory = 2`
trim the history to the latest exchange, which is user-first. -/
theorem sessionstore_history_invariant_witness :
    (⟨ProviderName.codex, [⟨Role.user, "x"⟩, ⟨Role.assistant, "y"⟩],
      ⟨none, none⟩, ⟨none, none⟩⟩ : ChatSession).history.length ≤ 2 :=
  (sessionstore_history_invariant ⟨ProviderName.codex, 2⟩
    [StoreOp.appendExchange "k" "hi" "yo", StoreOp.appendExchange "k" "x" "y"] "k"
    ⟨ProviderName.codex, [⟨Role.user, "x"⟩, ⟨Role.assistant, "y"⟩], ⟨none, none⟩, ⟨none, none⟩⟩
    (by decide) (by decide)).1

/-- C1 counterexample: the original claim extends the user-first invariant to
sessions loaded from a persisted file; it fails there.  A store reached by
`appendExchange "k" "" "reply"` (any user text is allowed) persists a session
whose user message has empty content; loading drops that message (load-time
normalization keeps only non-empty contents) and keeps the leading assistant
message because the loaded history does not exceed `maxHistory`; a subsequent
`appendExchange` then leaves a non-empty history whose first message has role
assistant, not user. -/
theorem sessionstore_loaded_first_role_assistant_cex :
    ((alookup (applyOp ⟨ProviderName.codex, 20⟩
        (loadStore ⟨ProviderName.codex, 20⟩
          (serializeStore (runOps ⟨ProviderName.codex, 20⟩
            [StoreOp.appendExchange "k" "" "reply"])))
        (StoreOp.appendExchange "k" "hi" "yo")).sessions "k").map
      (fun s => s.history.map Message.role)) =
        some [Role.assistant, Role.user, Role.assistant] ∧
    Role.assistant ≠ Role.user := by
  decide

/-! Round-trip lemmas (C3). -/

theorem normalizeProvider_toRaw (p : ProviderName) (d : ProviderName) :
    normalizeProvider p.toRaw d = p := by
  cases p <;> rfl

theorem length_pos_of_ne_empty (s : String) (h : s ≠ "") : 0 < s.length := by
  cases s with
  | mk l =>
    cases l with
    | nil => exact absurd rfl h
    | cons c cs => exact Nat.succ_pos cs.length

theorem normalizeMessage_user (u : String) (hu : u ≠ "") :
    normalizeMessage ⟨"user", u⟩ = some { role := .user, content := u } := by
  simp [normalizeMessage, length_pos_of_ne_empty u hu]

theorem normalizeMessage_assistant (a : String) (ha : a ≠ "") :
    normalizeMessage ⟨"assistant", a⟩ = some { role := .assistant, content := a } := by
  simp [normalizeMessage, length_pos_of_ne_empty a ha]

theorem normalizeHistory_serialize {h : List Message} (hl : IsExchangeList h) :
    (∀ m ∈ h, m.content ≠ "") → normalizeHistory (h.map serializeMessage) = h := by
  induction hl with
  | nil => intro _; rfl
  | pair u a rest hrest ih =>
    intro hc
    have hu : u ≠ "" := hc { role := .user, content := u } (List.mem_cons_self _ _)
    have ha : a ≠ "" :=
      hc { role := .assistant, content := a }
        (List.mem_cons_of_mem _ (List.mem_cons_self _ _))
    have hser1 : serializeMessage { role := .user, content := u } = ⟨"user", u⟩ := rfl
    have hser2 : serializeMessage { role := .assistant, content := a } = ⟨"assistant", a⟩ := rfl
    rw [List.map_cons, List.map_cons, normalizeHistory, List.filterMap_cons, hser1,
      normalizeMessage_user u hu]
    rw [List.filterMap_cons, hser2, normalizeMessage_assistant a ha]
    rw [← normalizeHistory, ih (fun m hm => hc m
      (List.mem_cons_of_mem _ (List.mem_cons_of_mem _ hm)))]

theorem normalizeOverrideField_id (w : Option String)
    (hw : ∀ s, w = some s → jsTrim s = s ∧ s ≠ "") : normalizeOverrideField w = w := by
  cases w with
  | none => rfl
  | some v =>
    obtain ⟨h1, h2⟩ := hw v rfl
    show (if jsTrim v = "" then none else some (jsTrim v)) = some v
    rw [h1, if_neg h2]

theorem normalizeOverrides_id (o : Overrides) (ho : OverridesInv o) :
    normalizeOverrides o = o := by
  obtain ⟨oc, ocl⟩ := o
  show Overrides.mk (normalizeOverrideField oc) (normalizeOverrideField ocl) = ⟨oc, ocl⟩
  rw [normalizeOverrideField_id oc ho.1, normalizeOverrideField_id ocl ho.2]

theorem trimHistoryFn_id (maxHistory : Nat) (h : List Message) (hle : h.length ≤ maxHistory) :
    trimHistoryFn maxHistory h = h := by
  rw [trimHistoryFn, if_pos hle]

theorem loadSession_serializeSession (cfg : StoreCfg) (s : ChatSession)
    (hs : SessionInv cfg s) (hc : ∀ m ∈ s.history, m.content ≠ "") :
    loadSession cfg (serializeSession s) = s := by
  obtain ⟨hlen, hexch, hmo, hro⟩ := hs
  obtain ⟨p, hist, mo, ro⟩ := s
  show ChatSession.mk _ _ _ _ = ChatSession.mk p hist mo ro
  simp only [ChatSession.mk.injEq]
  refine ⟨normalizeProvider_toRaw p cfg.defaultProvider, ?_,
    normalizeOverrides_id mo hmo, normalizeOverrides_id ro hro⟩
  show trimHistoryFn cfg.maxHistory (normalizeHistory (hist.map serializeMessage)) = hist
  rw [normalizeHistory_serialize hexch hc, trimHistoryFn_id cfg.maxHistory hist hlen]

theorem loadStore_foldl_eq_map (cfg : StoreCfg) (raw : List (String × RawSession)) :
    ∀ acc : List (String × ChatSession),
      (∀ e ∈ raw, alookup acc e.1 = none) → (raw.map Prod.fst).Nodup →
      raw.foldl (fun acc e => aset acc e.1 (loadSession cfg e.2)) acc =
        acc ++ raw.map fun e => (e.1, loadSession cfg e.2) := by
  induction raw with
  | nil =>
    intro acc _ _
    rw [List.foldl_nil, List.map_nil, List.append_nil]
  | cons e rest ih =>
    intro acc habs hnd
    obtain ⟨k0, r0⟩ := e
    rw [List.map_cons, List.nodup_cons] at hnd
    have h0 : alookup acc k0 = none := habs (k0, r0) (List.mem_cons_self _ _)
    rw [List.foldl_cons]
    rw [ih (aset acc k0 (loadSession cfg r0)) ?_ hnd.2]
    · rw [aset_append_of_absent acc k0 _ h0, List.map_cons, List.append_assoc,
        List.singleton_append]
    · intro e' he'
      have hne : e'.1 ≠ k0 := by
        intro hk
        apply hnd.1
        rw [← hk]
        exact List.mem_map.mpr ⟨e', he', rfl⟩
      rw [alookup_aset_ne _ _ _ _ hne]
      exact habs e' (List.mem_cons_of_mem _ he')

theorem loadStore_serialize_lookup (cfg : StoreCfg) (st : SessionStore)
    (hnd : (st.sessions.map Prod.fst).Nodup) (key : String) :
    alookup (loadStore cfg (serializeStore st)).sessions key =
      (alookup st.sessions key).map fun s => loadSession cfg (serializeSession s) := by
  rw [loadStore, serializeStore]
  have hkeys : (((st.sessions.map fun e => (e.1, serializeSession e.2)).map Prod.fst)).Nodup := by
    rw [List.map_map]
    have hcomp : (Prod.fst ∘ fun e : String × ChatSession => (e.1, serializeSession e.2)) =
        Prod.fst := funext fun e => rfl
    rw [hcomp]
    exact hnd
  show alookup ((st.sessions.map fun e => (e.1, serializeSession e.2)).foldl
      (fun acc e => aset acc e.1 (loadSession cfg e.2)) []) key = _
  rw [loadStore_foldl_eq_map cfg _ [] (fun e _ => rfl) hkeys, List.nil_append, List.map_map]
  have hcomp2 : ((fun e : String × RawSession => (e.1, loadSession cfg e.2)) ∘
      fun e : String × ChatSession => (e.1, serializeSession e.2)) =
        fun e : String × ChatSession => (e.1, loadSession cfg (serializeSession e.2)) :=
    funext fun e => rfl
  rw [hcomp2]
  exact alookup_map_value st.sessions (fun s => loadSession cfg (serializeSession s)) key

/-- C3 (amended): for every store state reachable through the store's
operations (positive `maxHistory`, as the configuration enforces), persisting
the store and loading the persisted document yields, for every conversation
key whose history contains no empty-content message, exactly the same
session: same provider, same history, and the same model- and
reasoning-effort-override maps.  (A history message with empty content —
producible by `appendExchange` with an empty user or assistant text — is
dropped by load-time normalization; see the counterexample.) -/
theorem sessionstore_persist_roundtrip (cfg : StoreCfg) (ops : List StoreOp) (key : String)
    (s : ChatSession) (hmax : 0 < cfg.maxHistory)
    (hs : alookup (runOps cfg ops).sessions key = some s)
    (hc : ∀ m ∈ s.history, m.content ≠ "") :
    alookup (loadStore cfg (serializeStore (runOps cfg ops))).sessions key = some s := by
  have hinv := storeInv_runOps cfg ops hmax
  rw [loadStore_serialize_lookup cfg _ hinv.1 key, hs]
  have hsess := hinv.2 (key, s) (alookup_mem _ _ _ hs)
  rw [Option.map_some']
  rw [loadSession_serializeSession cfg s hsess hc]

/-- Witness for C3's amended theorem on a concrete store. -/
theorem sessionstore_persist_roundtrip_witness :
    alookup (loadStore ⟨ProviderName.codex, 2⟩
        (serializeStore (runOps ⟨ProviderName.codex, 2⟩
          [StoreOp.appendExchange "k" "hi" "yo"]))).sessions "k" =
      some ⟨ProviderName.codex, [⟨Role.user, "hi"⟩, ⟨Role.assistant, "yo"⟩],
        ⟨none, none⟩, ⟨none, none⟩⟩ :=
  sessionstore_persist_roundtrip ⟨ProviderName.codex, 2⟩
    [StoreOp.appendExchange "k" "hi" "yo"] "k"
    ⟨ProviderName.codex, [⟨Role.user, "hi"⟩, ⟨Role.assistant, "yo"⟩], ⟨none, none⟩, ⟨none, none⟩⟩
    (by decide) (by decide) (by decide)

/-- C3 counterexample: the state reached by `appendExchange "k" "" "x"` is
reachable through the store's operations, but persisting and loading drops
the empty-content user message, so the loaded history differs from the saved
one. -/
theorem sessionstore_persist_roundtrip_cex :
    ((alookup (runOps ⟨ProviderName.codex, 20⟩
        [StoreOp.appendExchange "k" "" "x"]).sessions "k").map (fun s => s.history)) =
      some [⟨Role.user, ""⟩, ⟨Role.assistant, "x"⟩] ∧
    ((alookup (loadStore ⟨ProviderName.codex, 20⟩
        (serializeStore (runOps ⟨ProviderName.codex, 20⟩
          [StoreOp.appendExchange "k" "" "x"]))).sessions "k").map (fun s => s.history)) =
      some [⟨Role.assistant, "x"⟩] ∧
    (some [(⟨Role.assistant, "x"⟩ : Message)] ≠
      some [⟨Role.user, ""⟩, ⟨Role.assistant, "x"⟩]) := by
  decide

/-! C4: clearing model overrides. -/

theorem getModelOp_val (cfg : StoreCfg) (st : SessionStore) (key : String) (p : ProviderName) :
    (getModelOp cfg st key p).2 = (getOrCreate cfg st key).2.modelOverrides.get p := rfl

/-- C4 (amended): at the Session Store level, `setModel` clears the override
back to absent exactly for an absent (`undefined`) or blank
(whitespace-only) model string — after any such call, `getModel` returns
absent, whatever override was stored before.  The literal keyword
`"default"` is translated to `undefined` by the Telegram command layer
before it reaches the store; passed directly to the store it is stored
verbatim (see the counterexample). -/
theorem sessionstore_setmodel_blank_clears (cfg : StoreCfg) (st : SessionStore)
    (key : String) (p : ProviderName) (m : Option String)
    (hm : m = none ∨ ∃ v, m = some v ∧ jsTrim v = "") :
    (getModelOp cfg (applyOp cfg st (StoreOp.setModel key p m)) key p).2 = none := by
  have hov : ∀ o : Overrides, (setOverride o p m).get p = none := by
    intro o
    rcases hm with hm | ⟨v, hm, hv⟩
    · subst hm
      show (o.set p none).get p = none
      cases p <;> rfl
    · subst hm
      show (if jsTrim v = "" then o.set p none else o.set p (some (jsTrim v))).get p = none
      rw [if_pos hv]
      cases p <;> rfl
  have happ : applyOp cfg st (StoreOp.setModel key p m) =
      ⟨aset (getOrCreate cfg st key).1.sessions key
        { (getOrCreate cfg st key).2 with
          modelOverrides := setOverride (getOrCreate cfg st key).2.modelOverrides p m }⟩ := rfl
  rw [happ, getModelOp_val,
    getOrCreate_some cfg _ key _ (alookup_aset_self _ key _)]
  exact hov _

/-- Witness for C4's amended theorem: a blank string clears an override that
was previously set to `"gpt-x"`. -/
theorem sessionstore_setmodel_blank_clears_witness :
    (getModelOp ⟨ProviderName.codex, 20⟩
      (applyOp ⟨ProviderName.codex, 20⟩
        (applyOp ⟨ProviderName.codex, 20⟩ emptyStore
          (StoreOp.setModel "k" ProviderName.codex (some "gpt-x")))
        (StoreOp.setModel "k" ProviderName.codex (some "   "))) "k" ProviderName.codex).2 =
      none :=
  sessionstore_setmodel_blank_clears ⟨ProviderName.codex, 20⟩
    (applyOp ⟨ProviderName.codex, 20⟩ emptyStore
      (StoreOp.setModel "k" ProviderName.codex (some "gpt-x")))
    "k" ProviderName.codex (some "   ")
    (Or.inr ⟨"   ", rfl, by decide⟩)

/-- C4 counterexample: at the Session Store level, setting the model override
to the string `"default"` after `"gpt-x"` does not clear it — `getModel`
returns `"default"`, not absent (only the chat-command layer maps the
`default` keyword to an absent value). -/
theorem sessionstore_setmodel_default_stored_cex :
    (getModelOp ⟨ProviderName.codex, 20⟩
      (applyOp ⟨ProviderName.codex, 20⟩
        (applyOp ⟨ProviderName.codex, 20⟩ emptyStore
          (StoreOp.setModel "k" ProviderName.codex (some "gpt-x")))
        (StoreOp.setModel "k" ProviderName.codex (some "default"))) "k" ProviderName.codex).2 =
      some "default" ∧
    some "default" ≠ (none : Option String) := by
  decide

/-! Codex adapter lemmas (C6). -/

theorem codexAgentMessage_err (s : CodexFold) (it : Option CodexItem) :
    (codexAgentMessage s it).cliErrorMessage = s.cliErrorMessage := by
  cases it with
  | none => rfl
  | some i =>
    rw [codexAgentMessage]
    by_cases hty : i.itemType = some "agent_message"
    · rw [if_pos hty]
      cases i.text <;> rfl
    · rw [if_neg hty]

theorem codexStep_err (s : CodexFold) (e : CodexEvent) (he : e.carriesError = false) :
    (codexStep s e).cliErrorMessage = s.cliErrorMessage := by
  cases e with
  | itemStarted it => rfl
  | errorEvt em =>
    have hem : em = "" := by
      have : (em != "") = false := he
      simpa using this
    rw [codexStep, if_neg (by rw [hem]; exact fun hc => hc rfl)]
  | turnFailed em =>
    have hem : em = "" := by
      have : (em != "") = false := he
      simpa using this
    rw [codexStep, if_neg (by rw [hem]; exact fun hc => hc rfl)]
  | itemCompleted it => exact codexAgentMessage_err s it
  | itemUpdated it => exact codexAgentMessage_err s it
  | outputTextDelta d =>
    cases d with
    | none => rfl
    | some t =>
      rw [codexStep]
      by_cases ht : t ≠ ""
      · rw [if_pos ht]
      · rw [if_neg ht]
  | responseCompleted o => cases o <;> rfl
  | unknownEvt => rfl

theorem codexFold_no_error (events : List CodexEvent)
    (h : ∀ e ∈ events, e.carriesError = false) :
    (codexFold events).cliErrorMessage = "" := by
  rw [codexFold]
  have hgen : ∀ (l : List CodexEvent) (s : CodexFold), (∀ e ∈ l, e.carriesError = false) →
      s.cliErrorMessage = "" → (l.foldl codexStep s).cliErrorMessage = "" := by
    intro l
    induction l with
    | nil => exact fun s _ hs => hs
    | cons e rest ih =>
      intro s hl hs
      rw [List.foldl_cons]
      refine ih _ (fun e' he' => hl e' (List.mem_cons_of_mem e he')) ?_
      rw [codexStep_err s e (hl e (List.mem_cons_self e rest)), hs]
  exact hgen events _ h rfl

/-- C6: for the tolerant (codex) adapter, if the subprocess's event stream
contains no error-carrying event and the captured reply is non-blank after
trimming (in particular, when a non-empty final-text event was emitted) and
the process then exits with a non-zero code such as 1, `stream` still returns
the captured reply successfully instead of failing. -/
theorem codex_tolerant_nonzero_exit (events : List CodexEvent) (exitCode : Nat)
    (stderrTail : String) (hcode : exitCode ≠ 0)
    (herr : ∀ e ∈ events, e.carriesError = false)
    (hreply : jsTrim (codexFold events).reply ≠ "") :
    codexStreamResult events exitCode stderrTail =
      Except.ok (jsTrim (codexFold events).reply) := by
  have hno := codexFold_no_error events herr
  rw [codexStreamResult]
  simp only []
  rw [if_pos hcode, if_pos ⟨hreply, hno⟩]

/-- Witness for C6: a single non-empty final-text event (`item.completed`,
`agent_message`, text `"Hello."`) followed by exit code 1 yields the reply. -/
theorem codex_tolerant_nonzero_exit_witness :
    codexStreamResult [CodexEvent.itemCompleted (some ⟨some "agent_message", some "Hello.", none⟩)]
      1 "" = Except.ok "Hello." := by
  have h := codex_tolerant_nonzero_exit
    [CodexEvent.itemCompleted (some ⟨some "agent_message", some "Hello.", none⟩)] 1 ""
    (by decide) (by decide) (by decide)
  have htrim : jsTrim (codexFold
      [CodexEvent.itemCompleted (some ⟨some "agent_message", some "Hello.", none⟩)]).reply =
        "Hello." := by decide
  rw [h, htrim]

/-! Orchestrator lemmas (C7). -/

theorem historyOf_eq_of_lookup_some (st : SessionStore) (key : String) (s : ChatSession)
    (h : alookup st.sessions key = some s) : historyOf st key = s.history := by
  simp only [historyOf, h]

theorem historyOf_eq_of_lookup_none (st : SessionStore) (key : String)
    (h : alookup st.sessions key = none) : historyOf st key = [] := by
  simp only [historyOf, h]

theorem historyOf_aset (st : SessionStore) (key : String) (s' : ChatSession) (k : String) :
    historyOf ⟨aset st.sessions key s'⟩ k =
      if k = key then s'.history else historyOf st k := by
  by_cases hk : k = key
  · subst hk
    rw [if_pos rfl]
    exact historyOf_eq_of_lookup_some _ _ _ (alookup_aset_self st.sessions k s')
  · rw [if_neg hk]
    show (match alookup (aset st.sessions key s') k with
      | some s => s.history | none => []) = historyOf st k
    rw [alookup_aset_ne st.sessions key k s' hk]
    rfl

theorem getOrCreate_fst_history (cfg : StoreCfg) (st : SessionStore) (key : String)
    (k : String) : historyOf (getOrCreate cfg st key).1 k = historyOf st k := by
  cases hl : alookup st.sessions key with
  | some s => rw [getOrCreate_some cfg st key s hl]
  | none =>
    rw [getOrCreate_none cfg st key hl]
    show historyOf ⟨aset st.sessions key _⟩ k = historyOf st k
    rw [historyOf_aset]
    by_cases hk : k = key
    · subst hk
      rw [if_pos rfl, historyOf_eq_of_lookup_none st k hl]
    · rw [if_neg hk]

theorem getOrCreate_snd_history (cfg : StoreCfg) (st : SessionStore) (key : String) :
    (getOrCreate cfg st key).2.history = historyOf st key := by
  cases hl : alookup st.sessions key with
  | some s =>
    rw [getOrCreate_some cfg st key s hl, historyOf_eq_of_lookup_some st key s hl]
  | none =>
    rw [getOrCreate_none cfg st key hl, historyOf_eq_of_lookup_none st key hl]

theorem buildPromptOp_fst (cfg : StoreCfg) (st : SessionStore) (key userText : String)
    (sys : Option String) : (buildPromptOp cfg st key userText sys).1 = (getOrCreate cfg st key).1 :=
  rfl

theorem getModelOp_fst (cfg : StoreCfg) (st : SessionStore) (key : String) (p : ProviderName) :
    (getModelOp cfg st key p).1 = (getOrCreate cfg st key).1 := rfl

theorem getEffortOp_fst (cfg : StoreCfg) (st : SessionStore) (key : String) (p : ProviderName) :
    (getEffortOp cfg st key p).1 = (getOrCreate cfg st key).1 := rfl

theorem getProviderOp_fst (cfg : StoreCfg) (st : SessionStore) (key : String) :
    (getProviderOp cfg st key).1 = (getOrCreate cfg st key).1 := rfl

theorem applyOp_appendExchange_history (cfg : StoreCfg) (st : SessionStore)
    (key u a : String) (k : String) :
    historyOf (applyOp cfg st (StoreOp.appendExchange key u a)) k =
      if k = key then appendTrim cfg.maxHistory (historyOf st key) u a
      else historyOf st k := by
  have happ : applyOp cfg st (StoreOp.appendExchange key u a) =
      ⟨aset (getOrCreate cfg st key).1.sessions key
        { (getOrCreate cfg st key).2 with
          history := appendTrim cfg.maxHistory (getOrCreate cfg st key).2.history u a }⟩ := rfl
  rw [happ]
  have hset := historyOf_aset (getOrCreate cfg st key).1 key
    { (getOrCreate cfg st key).2 with
      history := appendTrim cfg.maxHistory (getOrCreate cfg st key).2.history u a } k
  rw [hset]
  by_cases hk : k = key
  · rw [if_pos hk, if_pos hk]
    show appendTrim cfg.maxHistory (getOrCreate cfg st key).2.history u a = _
    rw [getOrCreate_snd_history]
  · rw [if_neg hk, if_neg hk, getOrCreate_fst_history]

theorem askStreamFinish_history (cc : ChatCfg) (st5 st0 : SessionStore) (key userText : String)
    (pname : ProviderName) (r : Except String String)
    (hpres : ∀ k, historyOf st5 k = historyOf st0 k) :
    ((askStreamFinish cc st5 key userText pname r).2.isOk = false →
      ∀ k, historyOf (askStreamFinish cc st5 key userText pname r).1 k = historyOf st0 k) ∧
    (∀ p reply, (askStreamFinish cc st5 key userText pname r).2 = Except.ok (p, reply) →
      historyOf (askStreamFinish cc st5 key userText pname r).1 key =
        appendTrim cc.cfg.maxHistory (historyOf st0 key) userText reply ∧
      ∀ k, k ≠ key →
        historyOf (askStreamFinish cc st5 key userText pname r).1 k = historyOf st0 k) := by
  cases r with
  | error e =>
    refine ⟨fun _ k => hpres k, fun p reply h => absurd h (by simp [askStreamFinish])⟩
  | ok reply =>
    constructor
    · intro hok
      exact absurd hok (by simp [askStreamFinish, Except.isOk, Except.toBool])
    · intro p reply' h
      have hpair : (pname, reply) = (p, reply') := Except.ok.inj h
      have h2 : reply = reply' := congrArg Prod.snd hpair
      subst h2
      constructor
      · show historyOf (applyOp cc.cfg st5 (StoreOp.appendExchange key userText reply)) key = _
        rw [applyOp_appendExchange_history, if_pos rfl, hpres]
      · intro k hk
        show historyOf (applyOp cc.cfg st5 (StoreOp.appendExchange key userText reply)) k = _
        rw [applyOp_appendExchange_history, if_neg hk, hpres]

theorem askStreamResolved_history (cc : ChatCfg)
    (streamFn : ProviderName → List Message → Option String → Option String → Except String String)
    (st1 st0 : SessionStore) (key userText : String) (pname : ProviderName)
    (hpres : ∀ k, historyOf st1 k = historyOf st0 k) :
    ((askStreamResolved cc streamFn st1 key userText pname).2.isOk = false →
      ∀ k, historyOf (askStreamResolved cc streamFn st1 key userText pname).1 k = historyOf st0 k) ∧
    (∀ p reply, (askStreamResolved cc streamFn st1 key userText pname).2 = Except.ok (p, reply) →
      historyOf (askStreamResolved cc streamFn st1 key userText pname).1 key =
        appendTrim cc.cfg.maxHistory (historyOf st0 key) userText reply ∧
      ∀ k, k ≠ key →
        historyOf (askStreamResolved cc streamFn st1 key userText pname).1 k = historyOf st0 k) := by
  rw [askStreamResolved]
  by_cases hcont : cc.configured.contains pname = false
  · rw [if_pos hcont]
    exact ⟨fun _ k => hpres k, fun p reply h => absurd h (by simp)⟩
  · rw [if_neg hcont]
    simp only
    refine askStreamFinish_history cc _ st0 key userText pname _ (fun k => ?_)
    rw [getEffortOp_fst, getOrCreate_fst_history, getModelOp_fst, getOrCreate_fst_history,
      buildPromptOp_fst, getOrCreate_fst_history]
    exact hpres k

/-- C7: for every conversation key and user text, if `askStream` fails —
provider-resolution failure, adapter failure, or an empty configured-provider
set — the error propagates to the caller and every conversation's stored
history is exactly as it was before the call; the exchange is appended (with
the trimming invariant) exactly on success, and only for the requested key. -/
theorem chatservice_askstream_history (cc : ChatCfg)
    (streamFn : ProviderName → List Message → Option String → Option String → Except String String)
    (st : SessionStore) (key userText : String) :
    ((askStream cc streamFn st key userText).2.isOk = false →
      ∀ k, historyOf (askStream cc streamFn st key userText).1 k = historyOf st k) ∧
    (∀ p reply, (askStream cc streamFn st key userText).2 = Except.ok (p, reply) →
      historyOf (askStream cc streamFn st key userText).1 key =
        appendTrim cc.cfg.maxHistory (historyOf st key) userText reply ∧
      ∀ k, k ≠ key →
        historyOf (askStream cc streamFn st key userText).1 k = historyOf st k) := by
  rw [askStream]
  simp only
  by_cases hcont : cc.configured.contains (getProviderOp cc.cfg st key).2
  · rw [if_pos hcont]
    refine askStreamResolved_history cc streamFn _ st key userText _ (fun k => ?_)
    rw [getProviderOp_fst, getOrCreate_fst_history]
  · rw [if_neg hcont]
    cases hconf : cc.configured with
    | nil =>
      refine ⟨fun _ k => ?_, fun p reply h => absurd h (by simp)⟩
      rw [getProviderOp_fst, getOrCreate_fst_history]
    | cons f rest =>
      refine askStreamResolved_history cc streamFn _ st key userText f (fun k => ?_)
      rw [historyOf_aset]
      by_cases hk : k = key
      · subst hk
        rw [if_pos rfl]
        show (getOrCreate cc.cfg (getProviderOp cc.cfg st k).1 k).2.history = _
        rw [getOrCreate_snd_history, getProviderOp_fst, getOrCreate_fst_history]
      · rw [if_neg hk, getOrCreate_fst_history, getProviderOp_fst, getOrCreate_fst_history]

/-- Witness for C7: with no providers configured, `askStream` fails and the
history of the (fresh) conversation is unchanged. -/
theorem chatservice_askstream_history_witness :
    historyOf (askStream ⟨⟨ProviderName.codex, 20⟩, [], none⟩
      (fun _ _ _ _ => Except.error "boom") emptyStore "k" "u").1 "k" =
      historyOf emptyStore "k" :=
  (chatservice_askstream_history ⟨⟨ProviderName.codex, 20⟩, [], none⟩
    (fun _ _ _ _ => Except.error "boom") emptyStore "k" "u").1 (by decide) "k"

/-! Lock model lemmas (C9). -/

theorem alookup_of_not_mem {α : Type} (l : List (String × α)) (k : String)
    (h : k ∉ l.map Prod.fst) : alookup l k = none := by
  induction l with
  | nil => rfl
  | cons e rest ih =>
    obtain ⟨k0, v0⟩ := e
    rw [List.map_cons, List.mem_cons] at h
    push_neg at h
    rw [alookup_cons, if_neg (fun hk => h.1 hk.symm)]
    exact ih h.2

theorem alookup_aerase_self {α : Type} (l : List (String × α)) (k : String)
    (hnd : (l.map Prod.fst).Nodup) : alookup (aerase l k) k = none := by
  induction l with
  | nil => rfl
  | cons e rest ih =>
    obtain ⟨k0, v0⟩ := e
    rw [List.map_cons, List.nodup_cons] at hnd
    rw [aerase_cons]
    by_cases he : k0 = k
    · rw [if_pos he]
      apply alookup_of_not_mem
      rw [← he]
      exact hnd.1
    · rw [if_neg he, alookup_cons, if_neg he]
      exact ih hnd.2

theorem alookup_aerase_ne {α : Type} (l : List (String × α)) (k k' : String)
    (h : k' ≠ k) : alookup (aerase l k) k' = alookup l k' := by
  induction l with
  | nil => rfl
  | cons e rest ih =>
    obtain ⟨k0, v0⟩ := e
    rw [aerase_cons]
    by_cases he : k0 = k
    · rw [if_pos he, alookup_cons, if_neg (fun hk : k0 = k' => h (by rw [← hk, he]))]
    · rw [if_neg he, alookup_cons, alookup_cons, ih]

theorem findReq_mem {st : LockState} {rid : Nat} {r : LockReq}
    (h : findReq st rid = some r) : r ∈ st.reqs ∧ r.rid = rid := by
  refine ⟨List.mem_of_find?_eq_some h, ?_⟩
  have hp := List.find?_some h
  simpa using hp

theorem find?_rid_of_mem_nodup (l : List LockReq) (hnd : (l.map LockReq.rid).Nodup)
    (q : LockReq) (hq : q ∈ l) : l.find? (fun r => r.rid == q.rid) = some q := by
  induction l with
  | nil => exact absurd hq (by simp)
  | cons r rest ih =>
    rw [List.map_cons, List.nodup_cons] at hnd
    rcases List.mem_cons.mp hq with hq | hq
    · subst hq
      exact List.find?_cons_of_pos rest (by simp)
    · have hne : ¬ (r.rid == q.rid) = true := by
        simp only [beq_iff_eq]
        intro hr
        exact hnd.1 (hr ▸ List.mem_map.mpr ⟨q, hq, rfl⟩)
      rw [List.find?_cons_of_neg rest hne]
      exact ih hnd.2 hq

theorem findReq_of_mem_nodup {st : LockState} (hnd : (st.reqs.map LockReq.rid).Nodup)
    {q : LockReq} (hq : q ∈ st.reqs) : findReq st q.rid = some q :=
  find?_rid_of_mem_nodup st.reqs hnd q hq

theorem rid_inj {l : List LockReq} (hnd : (l.map LockReq.rid).Nodup)
    {q1 q2 : LockReq} (h1 : q1 ∈ l) (h2 : q2 ∈ l) (h : q1.rid = q2.rid) : q1 = q2 :=
  List.inj_on_of_nodup_map hnd h1 h2 h

theorem prevResolved_some_eq (st : LockState) (p : Nat) :
    prevResolved st (some p) =
      (match findReq st p with
       | some q => q.status == ReqStatus.done
       | none => false) := rfl

theorem upd_status_rid (rid : Nat) (s : ReqStatus) (r : LockReq) :
    (if r.rid = rid then { r with status := s } else r).rid = r.rid := by
  by_cases h : r.rid = rid <;> simp [h]

theorem upd_status_key (rid : Nat) (s : ReqStatus) (r : LockReq) :
    (if r.rid = rid then { r with status := s } else r).key = r.key := by
  by_cases h : r.rid = rid <;> simp [h]

theorem upd_status_previous (rid : Nat) (s : ReqStatus) (r : LockReq) :
    (if r.rid = rid then { r with status := s } else r).previous = r.previous := by
  by_cases h : r.rid = rid <;> simp [h]

theorem setStatus_reqs (st : LockState) (rid : Nat) (s : ReqStatus) :
    (setStatus st rid s).reqs =
      st.reqs.map fun r => if r.rid = rid then { r with status := s } else r := rfl

theorem setStatus_locks (st : LockState) (rid : Nat) (s : ReqStatus) :
    (setStatus st rid s).locks = st.locks := rfl

theorem find?_rid_map_upd (l : List LockReq) (rid : Nat) (s : ReqStatus) (p : Nat) :
    ((l.map fun r => if r.rid = rid then { r with status := s } else r).find?
        fun r => r.rid == p) =
      (l.find? fun r => r.rid == p).map
        fun q => if q.rid = rid then { q with status := s } else q := by
  induction l with
  | nil => rfl
  | cons r rest ih =>
    rw [List.map_cons]
    by_cases hp : (r.rid == p) = true
    · have hp2 : (((if r.rid = rid then { r with status := s } else r)).rid == p) = true := by
        rw [upd_status_rid]
        exact hp
      have e1 : ((if r.rid = rid then { r with status := s } else r) ::
          rest.map fun r => if r.rid = rid then { r with status := s } else r).find?
            (fun r => r.rid == p) =
          some (if r.rid = rid then { r with status := s } else r) :=
        List.find?_cons_of_pos _ hp2
      have e2 : (r :: rest).find? (fun r => r.rid == p) = some r :=
        List.find?_cons_of_pos _ hp
      rw [e1, e2]
      rfl
    · have hp2 : ¬ (((if r.rid = rid then { r with status := s } else r)).rid == p) = true := by
        rw [upd_status_rid]
        exact hp
      have e1 : ((if r.rid = rid then { r with status := s } else r) ::
          rest.map fun r => if r.rid = rid then { r with status := s } else r).find?
            (fun r => r.rid == p) =
          (rest.map fun r => if r.rid = rid then { r with status := s } else r).find?
            (fun r => r.rid == p) :=
        List.find?_cons_of_neg _ hp2
      have e2 : (r :: rest).find? (fun r => r.rid == p) = rest.find? (fun r => r.rid == p) :=
        List.find?_cons_of_neg _ hp
      rw [e1, e2]
      exact ih

theorem findReq_setStatus (st : LockState) (rid : Nat) (s : ReqStatus) (p : Nat) :
    findReq (setStatus st rid s) p =
      (findReq st p).map fun q => if q.rid = rid then { q with status := s } else q :=
  find?_rid_map_upd st.reqs rid s p

theorem prevResolved_reqs_only (st : LockState) (locks' : List (String × Nat))
    (x : Option Nat) : prevResolved { st with locks := locks' } x = prevResolved st x := by
  cases x <;> rfl

/-- Appending a freshly arrived (non-done) request changes no `prevResolved`
value. -/
theorem prevResolved_append (st : LockState) (newReq : LockReq) (locks' : List (String × Nat))
    (hnd : newReq.status ≠ .done) (x : Option Nat) :
    prevResolved { reqs := st.reqs ++ [newReq], locks := locks' } x = prevResolved st x := by
  cases x with
  | none => rfl
  | some p =>
    rw [prevResolved_some_eq, prevResolved_some_eq]
    have hfr2 : findReq { reqs := st.reqs ++ [newReq], locks := locks' } p =
        (st.reqs.find? fun r => r.rid == p).or ([newReq].find? fun r => r.rid == p) := by
      show (st.reqs ++ [newReq]).find? (fun r => r.rid == p) = _
      rw [List.find?_append]
    have hfr : findReq st p = st.reqs.find? fun r => r.rid == p := rfl
    rw [hfr2, hfr]
    cases hq : st.reqs.find? fun r => r.rid == p with
    | some q => rfl
    | none =>
      show (match Option.none.or ([newReq].find? fun r => r.rid == p) with
        | some q => q.status == ReqStatus.done
        | none => false) = false
      rw [Option.none_or]
      by_cases hp : (newReq.rid == p) = true
      · have e1 : [newReq].find? (fun r => r.rid == p) = some newReq :=
          List.find?_cons_of_pos _ hp
        rw [e1]
        simpa using hnd
      · have e1 : [newReq].find? (fun r => r.rid == p) = List.find? (fun r => r.rid == p) [] :=
          List.find?_cons_of_neg _ hp
        rw [e1]
        rfl

/-- Setting a not-yet-done request from one non-done status to another changes
no `prevResolved` value. -/
theorem prevResolved_setStatus_nondone (st : LockState) (rid : Nat) (s : ReqStatus)
    (hs : s ≠ .done) (hfound : ∀ q, findReq st rid = some q → q.status ≠ .done)
    (x : Option Nat) : prevResolved (setStatus st rid s) x = prevResolved st x := by
  cases x with
  | none => rfl
  | some p =>
    rw [prevResolved_some_eq, prevResolved_some_eq, findReq_setStatus]
    cases hq : findReq st p with
    | none => rfl
    | some q =>
      show ((if q.rid = rid then { q with status := s } else q).status == ReqStatus.done) = _
      by_cases hqr : q.rid = rid

      · rw [if_pos hqr]
        have hqp : q.rid = p := by simpa using List.find?_some hq
        have hq2 : findReq st rid = some q := by
          rw [show rid = p from by rw [← hqr, hqp]]
          exact hq
        have hqnd := hfound q hq2
        show (s == ReqStatus.done) = (q.status == ReqStatus.done)
        have e1 : (s == ReqStatus.done) = false := by simpa using hs
        have e2 : (q.status == ReqStatus.done) = false := by simpa using hqnd
        rw [e1, e2]
      · rw [if_neg hqr]

/-- Marking request `rid` done resolves exactly the `previous` links equal to
`some rid`, and preserves every link already resolved. -/
theorem prevResolved_setStatus_done (st : LockState) (rid : Nat) (r : LockReq)
    (hfind : findReq st rid = some r) (p : Nat) :
    prevResolved (setStatus st rid .done) (some p) = true ↔
      (prevResolved st (some p) = true ∨ p = rid) := by
  rw [prevResolved_some_eq, prevResolved_some_eq, findReq_setStatus]
  cases hq : findReq st p with
  | none =>
    constructor
    · intro h
      exact absurd h (by simp)
    · intro h
      rcases h with h | h
      · exact absurd h (by simp)
      · subst h
        rw [hq] at hfind
        exact absurd hfind (by simp)
  | some q =>
    have hqrid : q.rid = p := by
      have := List.find?_some hq
      simpa using this
    show ((if q.rid = rid then { q with status := ReqStatus.done } else q).status ==
      ReqStatus.done) = true ↔ _
    by_cases hqr : q.rid = rid
    · rw [if_pos hqr]
      simp only [beq_self_eq_true, true_iff]
      right
      rw [← hqrid, hqr]
    · rw [if_neg hqr]
      simp only [beq_iff_eq]
      constructor
      · intro h
        exact Or.inl h
      · intro h
        rcases h with h | h
        · exact h
        · exact absurd (h ▸ hqrid) hqr

theorem linkTarget (st : LockState)
    (hO : ∀ i : Nat, ∀ hi : i < st.reqs.length, ∀ p : Nat,
      (st.reqs.get ⟨i, hi⟩).previous = some p →
      ∃ j : Nat, ∃ hj : j < st.reqs.length, j < i ∧
        (st.reqs.get ⟨j, hj⟩).rid = p ∧
        (st.reqs.get ⟨j, hj⟩).key = (st.reqs.get ⟨i, hi⟩).key)
    (x : LockReq) (hx : x ∈ st.reqs) (p : Nat) (hp : x.previous = some p) :
    ∃ q ∈ st.reqs, q.rid = p ∧ q.key = x.key := by
  obtain ⟨⟨i, hi⟩, hget⟩ := List.mem_iff_get.mp hx
  obtain ⟨j, hj, _, hrid, hkey⟩ := hO i hi p (by rw [hget]; exact hp)
  refine ⟨st.reqs.get ⟨j, hj⟩, List.get_mem _ _ _, hrid, ?_⟩
  rw [hkey, hget]

/-- In an invariant state, when a running request is the still-current tail of
its key (nobody has consumed its completion as a `previous`), every other
request of that key is done.  This is the situation in which `finish` deletes
the `chatLocks` entry. -/
theorem no_pending_others (st : LockState)
    (hA : (st.reqs.map LockReq.rid).Nodup)
    (hO : ∀ i : Nat, ∀ hi : i < st.reqs.length, ∀ p : Nat,
      (st.reqs.get ⟨i, hi⟩).previous = some p →
      ∃ j : Nat, ∃ hj : j < st.reqs.length, j < i ∧
        (st.reqs.get ⟨j, hj⟩).rid = p ∧
        (st.reqs.get ⟨j, hj⟩).key = (st.reqs.get ⟨i, hi⟩).key)
    (hE : ∀ r ∈ st.reqs, r.status = .running → prevResolved st r.previous = true)
    (hF : ∀ r1 ∈ st.reqs, ∀ r2 ∈ st.reqs, r1.key = r2.key →
      r1.status ≠ .done → r2.status ≠ .done →
      prevResolved st r1.previous = true → prevResolved st r2.previous = true → r1 = r2)
    (r : LockReq) (hr : r ∈ st.reqs) (hrrun : r.status = .running)
    (hnocons : ∀ x ∈ st.reqs, x.previous ≠ some r.rid) :
    ∀ q ∈ st.reqs, q.key = r.key → q ≠ r → q.status = .done := by
  have hrres : prevResolved st r.previous = true := hE r hr hrrun
  have hrnd : r.status ≠ .done := by rw [hrrun]; intro hc; cases hc
  have main : ∀ i, ∀ hi : i < st.reqs.length, (st.reqs.get ⟨i, hi⟩).key = r.key →
      st.reqs.get ⟨i, hi⟩ ≠ r → (st.reqs.get ⟨i, hi⟩).status = .done := by
    intro i
    induction i using Nat.strong_induction_on with
    | _ i ih =>
      intro hi hkey hne
      by_contra hnd
      have hqmem : st.reqs.get ⟨i, hi⟩ ∈ st.reqs := List.get_mem _ _ _
      cases hqprev : (st.reqs.get ⟨i, hi⟩).previous with
      | none =>
        have hres : prevResolved st (st.reqs.get ⟨i, hi⟩).previous = true := by
          rw [hqprev]; rfl
        exact hne (hF _ hqmem r hr hkey hnd hrnd hres hrres)
      | some p =>
        obtain ⟨j, hj, hji, hjrid, hjkey⟩ := hO i hi p hqprev
        have hwmem : st.reqs.get ⟨j, hj⟩ ∈ st.reqs := List.get_mem _ _ _
        by_cases hwdone : (st.reqs.get ⟨j, hj⟩).status = .done
        · have hres : prevResolved st (st.reqs.get ⟨i, hi⟩).previous = true := by
            rw [hqprev, prevResolved_some_eq]
            have hfind : findReq st p = some (st.reqs.get ⟨j, hj⟩) := by
              rw [← hjrid]
              exact findReq_of_mem_nodup hA hwmem
            rw [hfind]
            show ((st.reqs.get ⟨j, hj⟩).status == ReqStatus.done) = true
            rw [hwdone]
            decide
          exact hne (hF _ hqmem r hr hkey hnd hrnd hres hrres)
        · have hpne : p ≠ r.rid := by
            intro hc
            exact hnocons _ hqmem (by rw [hqprev, hc])
          have hwne : st.reqs.get ⟨j, hj⟩ ≠ r := by
            intro hc
            exact hpne (by rw [← hjrid, hc])
          exact hwdone (ih j hji hj (by rw [hjkey, hkey]) hwne)
  intro q hq hkey hne
  obtain ⟨⟨i, hi⟩, hget⟩ := List.mem_iff_get.mp hq
  rw [← hget]
  exact main i hi (by rw [hget]; exact hkey) (by rw [hget]; exact hne)

/-- The `arrive` transition (the synchronous prefix of `withChatLock`)
preserves the lock invariant. -/
theorem lockInv_arrive (st st' : LockState) (key : String) (rid : Nat)
    (hInv : LockInv st) (hstep : lockStep st (.arrive key rid) = some st') :
    LockInv st' := by
  obtain ⟨hA, hL, hO, hB, hC, hD, hE, hF⟩ := hInv
  rw [lockStep] at hstep
  by_cases hany : st.reqs.any (fun r => r.rid == rid) = true
  · rw [if_pos hany] at hstep
    exact absurd hstep (by simp)
  · rw [if_neg hany] at hstep
    have hst' := (Option.some.inj hstep).symm
    subst hst'
    have hfresh : ∀ r ∈ st.reqs, r.rid ≠ rid := by
      intro r hr hc
      exact hany (List.any_eq_true.mpr ⟨r, hr, by simp [hc]⟩)
    set newReq : LockReq :=
      { rid := rid, key := key, previous := alookup st.locks key, status := .waiting }
      with hnew
    have hnrid : newReq.rid = rid := by rw [hnew]
    have hnkey : newReq.key = key := by rw [hnew]
    have hnprev : newReq.previous = alookup st.locks key := by rw [hnew]
    have hnstat : newReq.status = .waiting := by rw [hnew]
    have hndone : newReq.status ≠ .done := by rw [hnstat]; intro h; cases h
    have hPR : ∀ x,
        prevResolved { reqs := st.reqs ++ [newReq], locks := aset st.locks key rid } x =
          prevResolved st x :=
      prevResolved_append st newReq _ hndone
    have hnewNoPrevRid : newReq.previous ≠ some rid := by
      rw [hnprev]
      intro hc
      obtain ⟨q, hq, hqrid, _, _, _⟩ := hC key rid hc
      exact hfresh q hq hqrid
    have hnoconsNew : ∀ x ∈ st.reqs ++ [newReq], x.previous ≠ some rid := by
      intro x hx hc
      rcases List.mem_append.mp hx with hx | hx
      · obtain ⟨q, hq, hqrid, _⟩ :=
          linkTarget st hO x hx rid hc
        exact hfresh q hq hqrid
      · rw [List.mem_singleton] at hx
        rw [hx] at hc
        exact hnewNoPrevRid hc
    unfold LockInv
    refine ⟨?_, ?_, ?_, ?_, ?_, ?_, ?_, ?_⟩
    · show ((st.reqs ++ [newReq]).map LockReq.rid).Nodup
      rw [List.map_append]
      refine List.Nodup.append hA (by simp) ?_
      intro a ha hb
      simp only [List.map_cons, List.map_nil, List.mem_singleton, hnrid] at hb
      obtain ⟨r, hr, hrido⟩ := List.mem_map.mp ha
      exact hfresh r hr (by rw [hrido, hb])
    · show ((aset st.locks key rid).map Prod.fst).Nodup
      exact keys_aset_nodup _ _ _ hL
    · show ∀ i : Nat, ∀ hi : i < (st.reqs ++ [newReq]).length, ∀ p : Nat,
        ((st.reqs ++ [newReq]).get ⟨i, hi⟩).previous = some p →
        ∃ j : Nat, ∃ hj : j < (st.reqs ++ [newReq]).length, j < i ∧
          ((st.reqs ++ [newReq]).get ⟨j, hj⟩).rid = p ∧
          ((st.reqs ++ [newReq]).get ⟨j, hj⟩).key = ((st.reqs ++ [newReq]).get ⟨i, hi⟩).key
      intro i hi p hp
      have hlen : (st.reqs ++ [newReq]).length = st.reqs.length + 1 := by simp
      by_cases hilt : i < st.reqs.length
      · have hgeti : (st.reqs ++ [newReq]).get ⟨i, hi⟩ = st.reqs.get ⟨i, hilt⟩ := by
          rw [List.get_eq_getElem, List.get_eq_getElem]
          exact List.getElem_append_left hilt
        rw [hgeti] at hp
        obtain ⟨j, hj, hji, hjrid, hjkey⟩ := hO i hilt p hp
        have hjlt : j < (st.reqs ++ [newReq]).length := by rw [hlen]; omega
        have hgetj : (st.reqs ++ [newReq]).get ⟨j, hjlt⟩ = st.reqs.get ⟨j, hj⟩ := by
          rw [List.get_eq_getElem, List.get_eq_getElem]
          exact List.getElem_append_left hj
        refine ⟨j, hjlt, hji, by rw [hgetj]; exact hjrid, ?_⟩
        rw [hgetj, hgeti]
        exact hjkey
      · have hieq : i = st.reqs.length := by rw [hlen] at hi; omega
        have hgeti : (st.reqs ++ [newReq]).get ⟨i, hi⟩ = newReq := by
          rw [List.get_eq_getElem]
          exact List.getElem_concat_length st.reqs newReq i hieq hi
        rw [hgeti, hnprev] at hp
        obtain ⟨q, hq, hqrid, hqkey, _, _⟩ := hC key p hp
        obtain ⟨⟨j, hj⟩, hgq⟩ := List.mem_iff_get.mp hq
        have hjlt : j < (st.reqs ++ [newReq]).length := by rw [hlen]; omega
        have hgetj : (st.reqs ++ [newReq]).get ⟨j, hjlt⟩ = st.reqs.get ⟨j, hj⟩ := by
          rw [List.get_eq_getElem, List.get_eq_getElem]
          exact List.getElem_append_left hj
        refine ⟨j, hjlt, by omega, ?_, ?_⟩
        · rw [hgetj, hgq]
          exact hqrid
        · rw [hgetj, hgq, hgeti, hqkey, hnkey]
    · show ∀ r1 ∈ st.reqs ++ [newReq], ∀ r2 ∈ st.reqs ++ [newReq], ∀ p : Nat,
        r1.previous = some p → r2.previous = some p → r1 = r2
      have hside : ∀ r ∈ st.reqs, ∀ p : Nat,
          newReq.previous = some p → r.previous = some p → False := by
        intro r hr p hp1 hp2
        rw [hnprev] at hp1
        obtain ⟨q, hq, hqrid, hqkey, hqnd, hnocons⟩ := hC key p hp1
        exact hnocons r hr hp2
      intro r1 h1 r2 h2 p hp1 hp2
      rcases List.mem_append.mp h1 with h1 | h1 <;>
        rcases List.mem_append.mp h2 with h2 | h2
      · exact hB r1 h1 r2 h2 p hp1 hp2
      · rw [List.mem_singleton] at h2
        subst h2
        exact (hside r1 h1 p hp2 hp1).elim
      · rw [List.mem_singleton] at h1
        subst h1
        exact (hside r2 h2 p hp1 hp2).elim
      · rw [List.mem_singleton] at h1
        rw [List.mem_singleton] at h2
        rw [h1, h2]
    · show ∀ key' t, alookup (aset st.locks key rid) key' = some t →
        ∃ q ∈ st.reqs ++ [newReq], q.rid = t ∧ q.key = key' ∧ q.status ≠ .done ∧
          ∀ x ∈ st.reqs ++ [newReq], x.previous ≠ some t
      intro key' t hlk
      by_cases hk : key' = key
      · subst hk
        rw [alookup_aset_self] at hlk
        have ht : t = rid := (Option.some.inj hlk).symm
        subst ht
        refine ⟨newReq, by simp, hnrid, hnkey, hndone, hnoconsNew⟩
      · rw [alookup_aset_ne _ _ _ _ hk] at hlk
        obtain ⟨q, hq, hqrid, hqkey, hqnd, hnocons⟩ := hC key' t hlk
        refine ⟨q, List.mem_append.mpr (Or.inl hq), hqrid, hqkey, hqnd, ?_⟩
        intro x hx hc
        rcases List.mem_append.mp hx with hx | hx
        · exact hnocons x hx hc
        · rw [List.mem_singleton] at hx
          rw [hx, hnprev] at hc
          obtain ⟨q', hq', hqrid', hqkey', _, _⟩ := hC key t hc
          have : q = q' := rid_inj hA hq hq' (by rw [hqrid, hqrid'])
          exact hk (by rw [← hqkey, this, hqkey'])
    · show ∀ key', alookup (aset st.locks key rid) key' = none →
        ∀ q ∈ st.reqs ++ [newReq], q.key = key' → q.status = .done
      intro key' hlk q hq hqk
      by_cases hk : key' = key
      · subst hk
        rw [alookup_aset_self] at hlk
        exact absurd hlk (by simp)
      · rw [alookup_aset_ne _ _ _ _ hk] at hlk
        rcases List.mem_append.mp hq with hq | hq
        · exact hD key' hlk q hq hqk
        · rw [List.mem_singleton] at hq
          rw [hq, hnkey] at hqk
          exact absurd hqk.symm hk
    · show ∀ r ∈ st.reqs ++ [newReq], r.status = .running →
        prevResolved { reqs := st.reqs ++ [newReq], locks := aset st.locks key rid }
          r.previous = true
      intro r hr hrun
      rw [hPR]
      rcases List.mem_append.mp hr with hr | hr
      · exact hE r hr hrun
      · rw [List.mem_singleton] at hr
        rw [hr, hnstat] at hrun
        cases hrun
    · show ∀ r1 ∈ st.reqs ++ [newReq], ∀ r2 ∈ st.reqs ++ [newReq], r1.key = r2.key →
        r1.status ≠ .done → r2.status ≠ .done →
        prevResolved { reqs := st.reqs ++ [newReq], locks := aset st.locks key rid }
          r1.previous = true →
        prevResolved { reqs := st.reqs ++ [newReq], locks := aset st.locks key rid }
          r2.previous = true → r1 = r2
      have hside : ∀ r ∈ st.reqs, r.key = key → r.status ≠ .done →
          prevResolved st newReq.previous = true → False := by
        intro r hr hrkey hrnd hres
        rw [hnprev] at hres
        cases hlk : alookup st.locks key with
        | none =>
          exact hrnd (hD key hlk r hr hrkey)
        | some t =>
          rw [hlk] at hres
          obtain ⟨q, hq, hqrid, _, hqnd, _⟩ := hC key t hlk
          rw [prevResolved_some_eq] at hres
          have hfq : findReq st t = some q := by
            rw [← hqrid]
            exact findReq_of_mem_nodup hA hq
          rw [hfq] at hres
          exact hqnd (by simpa using hres)
      intro r1 h1 r2 h2 hkey hnd1 hnd2 hres1 hres2
      rw [hPR] at hres1
      rw [hPR] at hres2
      rcases List.mem_append.mp h1 with h1 | h1 <;>
        rcases List.mem_append.mp h2 with h2 | h2
      · exact hF r1 h1 r2 h2 hkey hnd1 hnd2 hres1 hres2
      · rw [List.mem_singleton] at h2
        subst h2
        rw [hnkey] at hkey
        exact (hside r1 h1 hkey hnd1 hres2).elim
      · rw [List.mem_singleton] at h1
        subst h1
        rw [hnkey] at hkey
        exact (hside r2 h2 hkey.symm hnd2 hres1).elim
      · rw [List.mem_singleton] at h1
        rw [List.mem_singleton] at h2
        rw [h1, h2]

theorem upd_status_status (rid : Nat) (s : ReqStatus) (r : LockReq) :
    (if r.rid = rid then { r with status := s } else r).status =
      if r.rid = rid then s else r.status := by
  by_cases h : r.rid = rid <;> simp [h]

theorem mem_setStatus {st : LockState} {rid : Nat} {s : ReqStatus} {x : LockReq}
    (hx : x ∈ (setStatus st rid s).reqs) :
    ∃ y ∈ st.reqs, x = if y.rid = rid then { y with status := s } else y := by
  rw [setStatus_reqs] at hx
  obtain ⟨y, hy, hxy⟩ := List.mem_map.mp hx
  exact ⟨y, hy, hxy.symm⟩

theorem setStatus_rid_map (st : LockState) (rid : Nat) (s : ReqStatus) :
    (setStatus st rid s).reqs.map LockReq.rid = st.reqs.map LockReq.rid := by
  rw [setStatus_reqs, List.map_map]
  exact List.map_congr_left (fun r _ => upd_status_rid rid s r)

/-- The `start` transition (`await previous` completing, the task body
beginning) preserves the lock invariant. -/
theorem lockInv_start (st st' : LockState) (rid : Nat)
    (hInv : LockInv st) (hstep : lockStep st (.start rid) = some st') :
    LockInv st' := by
  obtain ⟨hA, hL, hO, hB, hC, hD, hE, hF⟩ := hInv
  rw [lockStep] at hstep
  cases hfind : findReq st rid with
  | none =>
    rw [hfind] at hstep
    exact absurd hstep (by simp)
  | some r =>
    rw [hfind] at hstep
    have hstep2 : (if r.status = ReqStatus.waiting ∧ prevResolved st r.previous = true
        then some (setStatus st rid ReqStatus.running) else none) = some st' := hstep
    by_cases hcond : r.status = ReqStatus.waiting ∧ prevResolved st r.previous = true
    · rw [if_pos hcond] at hstep2
      have hst' := (Option.some.inj hstep2).symm
      subst hst'
      obtain ⟨hrmem, hrrid⟩ := findReq_mem hfind
      have hfound : ∀ q, findReq st rid = some q → q.status ≠ .done := by
        intro q hq
        rw [hfind] at hq
        rw [← Option.some.inj hq, hcond.1]
        intro h
        cases h
      have hPR : ∀ x, prevResolved (setStatus st rid .running) x = prevResolved st x :=
        prevResolved_setStatus_nondone st rid .running (by intro h; cases h) hfound
      unfold LockInv
      refine ⟨?_, ?_, ?_, ?_, ?_, ?_, ?_, ?_⟩
      · rw [setStatus_rid_map]
        exact hA
      · rw [setStatus_locks]
        exact hL
      · intro i hi p hp
        have hlen : (setStatus st rid ReqStatus.running).reqs.length = st.reqs.length := by
          rw [setStatus_reqs, List.length_map]
        have hi' : i < st.reqs.length := by rw [← hlen]; exact hi
        have hget : ∀ m, ∀ hm : m < (setStatus st rid ReqStatus.running).reqs.length,
            ∀ hm' : m < st.reqs.length,
            (setStatus st rid ReqStatus.running).reqs.get ⟨m, hm⟩ =
              if (st.reqs.get ⟨m, hm'⟩).rid = rid
              then { st.reqs.get ⟨m, hm'⟩ with status := ReqStatus.running }
              else st.reqs.get ⟨m, hm'⟩ := by
          intro m hm hm'
          rw [List.get_eq_getElem, List.get_eq_getElem]
          simp only [setStatus_reqs]
          rw [List.getElem_map]
        rw [hget i hi hi', upd_status_previous] at hp
        obtain ⟨j, hj, hji, hjrid, hjkey⟩ := hO i hi' p hp
        have hj2 : j < (setStatus st rid ReqStatus.running).reqs.length := by
          rw [hlen]
          exact hj
        refine ⟨j, hj2, hji, ?_, ?_⟩
        · rw [hget j hj2 hj, upd_status_rid]
          exact hjrid
        · rw [hget j hj2 hj, hget i hi hi', upd_status_key, upd_status_key]
          exact hjkey
      · intro r1 h1 r2 h2 p hp1 hp2
        obtain ⟨y1, hy1, e1⟩ := mem_setStatus h1
        obtain ⟨y2, hy2, e2⟩ := mem_setStatus h2
        rw [e1, upd_status_previous] at hp1
        rw [e2, upd_status_previous] at hp2
        rw [e1, e2, hB y1 hy1 y2 hy2 p hp1 hp2]
      · intro key t hlk
        rw [setStatus_locks] at hlk
        obtain ⟨q, hq, hqrid, hqkey, hqnd, hnocons⟩ := hC key t hlk
        refine ⟨if q.rid = rid then { q with status := ReqStatus.running } else q,
          ?_, ?_, ?_, ?_, ?_⟩
        · rw [setStatus_reqs]
          exact List.mem_map_of_mem _ hq
        · rw [upd_status_rid]
          exact hqrid
        · rw [upd_status_key]
          exact hqkey
        · rw [upd_status_status]
          by_cases hqr : q.rid = rid
          · rw [if_pos hqr]
            intro h
            cases h
          · rw [if_neg hqr]
            exact hqnd
        · intro x hx hc
          obtain ⟨y, hy, ey⟩ := mem_setStatus hx
          rw [ey, upd_status_previous] at hc
          exact hnocons y hy hc
      · intro key hlk q' hq' hqk
        rw [setStatus_locks] at hlk
        obtain ⟨y, hy, ey⟩ := mem_setStatus hq'
        rw [ey, upd_status_key] at hqk
        have hydone : y.status = .done := hD key hlk y hy hqk
        by_cases hyr : y.rid = rid
        · have hyeq : y = r := rid_inj hA hy hrmem (by rw [hyr, hrrid])
          rw [hyeq, hcond.1] at hydone
          cases hydone
        · rw [ey, if_neg hyr]
          exact hydone
      · intro x hx hrun
        rw [hPR]
        obtain ⟨y, hy, ey⟩ := mem_setStatus hx
        rw [ey, upd_status_previous]
        by_cases hyr : y.rid = rid
        · have hyeq : y = r := rid_inj hA hy hrmem (by rw [hyr, hrrid])
          rw [hyeq]
          exact hcond.2
        · rw [ey, if_neg hyr] at hrun
          exact hE y hy hrun
      · intro r1 h1 r2 h2 hkey hnd1 hnd2 hres1 hres2
        obtain ⟨y1, hy1, e1⟩ := mem_setStatus h1
        obtain ⟨y2, hy2, e2⟩ := mem_setStatus h2
        rw [hPR] at hres1 hres2
        rw [e1, upd_status_previous] at hres1
        rw [e2, upd_status_previous] at hres2
        rw [e1, e2, upd_status_key, upd_status_key] at hkey
        have hnd1' : y1.status ≠ .done := by
          by_cases hyr : y1.rid = rid
          · have hyeq : y1 = r := rid_inj hA hy1 hrmem (by rw [hyr, hrrid])
            rw [hyeq, hcond.1]
            intro h
            cases h
          · rw [e1, if_neg hyr] at hnd1
            exact hnd1
        have hnd2' : y2.status ≠ .done := by
          by_cases hyr : y2.rid = rid
          · have hyeq : y2 = r := rid_inj hA hy2 hrmem (by rw [hyr, hrrid])
            rw [hyeq, hcond.1]
            intro h
            cases h
          · rw [e2, if_neg hyr] at hnd2
            exact hnd2
        rw [e1, e2, hF y1 hy1 y2 hy2 hkey hnd1' hnd2' hres1 hres2]
    · rw [if_neg hcond] at hstep2
      exact absurd hstep2 (by simp)

theorem length_setStatus (st : LockState) (rid : Nat) (s : ReqStatus) :
    (setStatus st rid s).reqs.length = st.reqs.length := by
  rw [setStatus_reqs, List.length_map]

theorem get_setStatus (st : LockState) (rid : Nat) (s : ReqStatus) (m : Nat)
    (hm : m < (setStatus st rid s).reqs.length) (hm' : m < st.reqs.length) :
    (setStatus st rid s).reqs.get ⟨m, hm⟩ =
      if (st.reqs.get ⟨m, hm'⟩).rid = rid
      then { st.reqs.get ⟨m, hm'⟩ with status := s }
      else st.reqs.get ⟨m, hm'⟩ := by
  rw [List.get_eq_getElem, List.get_eq_getElem]
  simp only [setStatus_reqs]
  rw [List.getElem_map]

theorem linkOrder_setStatus (st : LockState) (rid : Nat) (s : ReqStatus)
    (hO : ∀ i : Nat, ∀ hi : i < st.reqs.length, ∀ p : Nat,
      (st.reqs.get ⟨i, hi⟩).previous = some p →
      ∃ j : Nat, ∃ hj : j < st.reqs.length, j < i ∧
        (st.reqs.get ⟨j, hj⟩).rid = p ∧
        (st.reqs.get ⟨j, hj⟩).key = (st.reqs.get ⟨i, hi⟩).key) :
    ∀ i : Nat, ∀ hi : i < (setStatus st rid s).reqs.length, ∀ p : Nat,
      ((setStatus st rid s).reqs.get ⟨i, hi⟩).previous = some p →
      ∃ j : Nat, ∃ hj : j < (setStatus st rid s).reqs.length, j < i ∧
        ((setStatus st rid s).reqs.get ⟨j, hj⟩).rid = p ∧
        ((setStatus st rid s).reqs.get ⟨j, hj⟩).key =
          ((setStatus st rid s).reqs.get ⟨i, hi⟩).key := by
  intro i hi p hp
  have hi' : i < st.reqs.length := by rw [← length_setStatus st rid s]; exact hi
  rw [get_setStatus st rid s i hi hi', upd_status_previous] at hp
  obtain ⟨j, hj, hji, hjrid, hjkey⟩ := hO i hi' p hp
  have hj2 : j < (setStatus st rid s).reqs.length := by rw [length_setStatus]; exact hj
  refine ⟨j, hj2, hji, ?_, ?_⟩
  · rw [get_setStatus st rid s j hj2 hj, upd_status_rid]
    exact hjrid
  · rw [get_setStatus st rid s j hj2 hj, get_setStatus st rid s i hi hi',
      upd_status_key, upd_status_key]
    exact hjkey

theorem prevInj_setStatus (st : LockState) (rid : Nat) (s : ReqStatus)
    (hB : ∀ r1 ∈ st.reqs, ∀ r2 ∈ st.reqs, ∀ p : Nat,
      r1.previous = some p → r2.previous = some p → r1 = r2) :
    ∀ r1 ∈ (setStatus st rid s).reqs, ∀ r2 ∈ (setStatus st rid s).reqs, ∀ p : Nat,
      r1.previous = some p → r2.previous = some p → r1 = r2 := by
  intro r1 h1 r2 h2 p hp1 hp2
  obtain ⟨y1, hy1, e1⟩ := mem_setStatus h1
  obtain ⟨y2, hy2, e2⟩ := mem_setStatus h2
  rw [e1, upd_status_previous] at hp1
  rw [e2, upd_status_previous] at hp2
  rw [e1, e2, hB y1 hy1 y2 hy2 p hp1 hp2]

/-- The `finish` transition (the task settling plus the `finally` block, which
releases `current` and conditionally deletes the `chatLocks` entry) preserves
the lock invariant. -/
theorem lockInv_finish (st st' : LockState) (rid : Nat)
    (hInv : LockInv st) (hstep : lockStep st (.finish rid) = some st') :
    LockInv st' := by
  obtain ⟨hA, hL, hO, hB, hC, hD, hE, hF⟩ := hInv
  rw [lockStep] at hstep
  cases hfind : findReq st rid with
  | none =>
    rw [hfind] at hstep
    exact absurd hstep (by simp)
  | some r =>
    rw [hfind] at hstep
    have hstep2 : (if r.status = ReqStatus.running
        then some { reqs := (setStatus st rid ReqStatus.done).reqs,
                    locks := if alookup st.locks r.key = some rid
                             then aerase st.locks r.key else st.locks }
        else none) = some st' := hstep
    by_cases hrun : r.status = ReqStatus.running
    · rw [if_pos hrun] at hstep2
      obtain ⟨hrmem, hrrid⟩ := findReq_mem hfind
      have hrres : prevResolved st r.previous = true := hE r hrmem hrun
      have hrnd : r.status ≠ .done := by rw [hrun]; intro h; cases h
      have hPRdone : ∀ p, prevResolved (setStatus st rid .done) (some p) = true ↔
          (prevResolved st (some p) = true ∨ p = rid) :=
        prevResolved_setStatus_done st rid r hfind
      have hyner : ∀ y ∈ st.reqs,
          (if y.rid = rid then { y with status := ReqStatus.done } else y).status ≠
            ReqStatus.done →
          y.rid ≠ rid ∧
            (if y.rid = rid then { y with status := ReqStatus.done } else y) = y ∧
            y ≠ r := by
        intro y hy hnd
        have hyr : y.rid ≠ rid := by
          intro hc
          rw [if_pos hc] at hnd
          exact hnd rfl
        refine ⟨hyr, if_neg hyr, ?_⟩
        intro hc
        rw [hc] at hyr
        exact hyr hrrid
      by_cases hcur : alookup st.locks r.key = some rid
      · rw [if_pos hcur] at hstep2
        have hst' := (Option.some.inj hstep2).symm
        subst hst'
        obtain ⟨q0, hq0, hq0rid, hq0key, _, hnocons0⟩ := hC r.key rid hcur
        have hq0r : q0 = r := rid_inj hA hq0 hrmem (by rw [hq0rid, hrrid])
        have hnocons : ∀ x ∈ st.reqs, x.previous ≠ some r.rid := by
          rw [hrrid]
          exact hnocons0
        have hothers : ∀ q ∈ st.reqs, q.key = r.key → q ≠ r → q.status = .done :=
          no_pending_others st hA hO hE hF r hrmem hrun hnocons
        have hPR : ∀ x,
            prevResolved
              (LockState.mk (setStatus st rid ReqStatus.done).reqs (aerase st.locks r.key)) x =
              prevResolved (setStatus st rid ReqStatus.done) x :=
          prevResolved_reqs_only (setStatus st rid ReqStatus.done) _
        unfold LockInv
        refine ⟨?_, ?_, ?_, ?_, ?_, ?_, ?_, ?_⟩
        · show ((setStatus st rid ReqStatus.done).reqs.map LockReq.rid).Nodup
          rw [setStatus_rid_map]
          exact hA
        · show ((aerase st.locks r.key).map Prod.fst).Nodup
          exact keys_aerase_nodup _ _ hL
        · show ∀ i : Nat, ∀ hi : i < (setStatus st rid ReqStatus.done).reqs.length, ∀ p : Nat,
            ((setStatus st rid ReqStatus.done).reqs.get ⟨i, hi⟩).previous = some p →
            ∃ j : Nat, ∃ hj : j < (setStatus st rid ReqStatus.done).reqs.length, j < i ∧
              ((setStatus st rid ReqStatus.done).reqs.get ⟨j, hj⟩).rid = p ∧
              ((setStatus st rid ReqStatus.done).reqs.get ⟨j, hj⟩).key =
                ((setStatus st rid ReqStatus.done).reqs.get ⟨i, hi⟩).key
          exact linkOrder_setStatus st rid .done hO
        · show ∀ r1 ∈ (setStatus st rid ReqStatus.done).reqs,
            ∀ r2 ∈ (setStatus st rid ReqStatus.done).reqs, ∀ p : Nat,
            r1.previous = some p → r2.previous = some p → r1 = r2
          exact prevInj_setStatus st rid .done hB
        · show ∀ key t, alookup (aerase st.locks r.key) key = some t →
            ∃ q ∈ (setStatus st rid ReqStatus.done).reqs,
              q.rid = t ∧ q.key = key ∧ q.status ≠ .done ∧
              ∀ x ∈ (setStatus st rid ReqStatus.done).reqs, x.previous ≠ some t
          intro key t hlk
          by_cases hk : key = r.key
          · rw [hk, alookup_aerase_self st.locks r.key hL] at hlk
            exact absurd hlk (by simp)
          · rw [alookup_aerase_ne _ _ _ (fun h => hk h)] at hlk
            obtain ⟨q, hq, hqrid, hqkey, hqnd, hnocons'⟩ := hC key t hlk
            have hqr : q.rid ≠ rid := by
              intro hc
              have : q = r := rid_inj hA hq hrmem (by rw [hc, hrrid])
              rw [this] at hqkey
              exact hk hqkey.symm
            refine ⟨if q.rid = rid then { q with status := ReqStatus.done } else q, ?_,
              ?_, ?_, ?_, ?_⟩
            · rw [setStatus_reqs]
              exact List.mem_map_of_mem _ hq
            · rw [upd_status_rid]
              exact hqrid
            · rw [upd_status_key]
              exact hqkey
            · rw [if_neg hqr]
              exact hqnd
            · intro x hx hc
              obtain ⟨y, hy, ey⟩ := mem_setStatus hx
              rw [ey, upd_status_previous] at hc
              exact hnocons' y hy hc
        · show ∀ key, alookup (aerase st.locks r.key) key = none →
            ∀ q ∈ (setStatus st rid ReqStatus.done).reqs, q.key = key → q.status = .done
          intro key hlk q' hq' hqk
          obtain ⟨y, hy, ey⟩ := mem_setStatus hq'
          rw [ey, upd_status_key] at hqk
          by_cases hk : key = r.key
          · by_cases hyr : y.rid = rid
            · rw [ey, if_pos hyr]
            · rw [ey, if_neg hyr]
              refine hothers y hy (by rw [hqk, hk]) ?_
              intro hc
              rw [hc] at hyr
              exact hyr hrrid
          · rw [alookup_aerase_ne _ _ _ (fun h => hk h)] at hlk
            have hydone : y.status = .done := hD key hlk y hy hqk
            by_cases hyr : y.rid = rid
            · have hyeq : y = r := rid_inj hA hy hrmem (by rw [hyr, hrrid])
              rw [hyeq, hrun] at hydone
              cases hydone
            · rw [ey, if_neg hyr]
              exact hydone
        · show ∀ x ∈ (setStatus st rid ReqStatus.done).reqs, x.status = .running →
            prevResolved
              (LockState.mk (setStatus st rid ReqStatus.done).reqs (aerase st.locks r.key)) x.previous = true
          intro x hx hxrun
          rw [hPR]
          obtain ⟨y, hy, ey⟩ := mem_setStatus hx
          have hyr : y.rid ≠ rid := by
            intro hc
            rw [ey, if_pos hc] at hxrun
            cases hxrun
          rw [ey, if_neg hyr] at hxrun
          rw [ey, if_neg hyr]
          have hyres : prevResolved st y.previous = true := hE y hy hxrun
          cases hyp : y.previous with
          | none => rfl
          | some p =>
            rw [hyp] at hyres
            exact (hPRdone p).mpr (Or.inl hyres)
        · show ∀ r1 ∈ (setStatus st rid ReqStatus.done).reqs,
            ∀ r2 ∈ (setStatus st rid ReqStatus.done).reqs, r1.key = r2.key →
            r1.status ≠ .done → r2.status ≠ .done →
            prevResolved
              (LockState.mk (setStatus st rid ReqStatus.done).reqs (aerase st.locks r.key)) r1.previous = true →
            prevResolved
              (LockState.mk (setStatus st rid ReqStatus.done).reqs (aerase st.locks r.key)) r2.previous = true → r1 = r2
          intro r1 h1 r2 h2 hkey hnd1 hnd2 hres1 hres2
          rw [hPR] at hres1 hres2
          obtain ⟨y1, hy1, e1⟩ := mem_setStatus h1
          obtain ⟨y2, hy2, e2⟩ := mem_setStatus h2
          obtain ⟨hy1r, e1', hy1ne⟩ := hyner y1 hy1 (by rw [← e1]; exact hnd1)
          obtain ⟨hy2r, e2', hy2ne⟩ := hyner y2 hy2 (by rw [← e2]; exact hnd2)
          rw [e1, e1'] at hres1 ⊢
          rw [e2, e2'] at hres2 ⊢
          rw [e1, e1', e2, e2'] at hkey
          have hr1 : prevResolved st y1.previous = true := by
            cases hyp : y1.previous with
            | none => rfl
            | some p =>
              rw [hyp] at hres1
              rcases (hPRdone p).mp hres1 with h | h
              · exact h
              · rw [h] at hyp
                rw [← hrrid] at hyp
                exact absurd hyp (hnocons y1 hy1)
          have hr2 : prevResolved st y2.previous = true := by
            cases hyp : y2.previous with
            | none => rfl
            | some p =>
              rw [hyp] at hres2
              rcases (hPRdone p).mp hres2 with h | h
              · exact h
              · rw [h] at hyp
                rw [← hrrid] at hyp
                exact absurd hyp (hnocons y2 hy2)
          have hnd1' : y1.status ≠ .done := by rw [← e1', ← e1]; exact hnd1
          have hnd2' : y2.status ≠ .done := by rw [← e2', ← e2]; exact hnd2
          exact hF y1 hy1 y2 hy2 hkey hnd1' hnd2' hr1 hr2
      · rw [if_neg hcur] at hstep2
        have hst' := (Option.some.inj hstep2).symm
        subst hst'
        have hPR : ∀ x,
            prevResolved
              (LockState.mk (setStatus st rid ReqStatus.done).reqs (st.locks)) x =
              prevResolved (setStatus st rid ReqStatus.done) x :=
          prevResolved_reqs_only (setStatus st rid ReqStatus.done) _
        unfold LockInv
        refine ⟨?_, ?_, ?_, ?_, ?_, ?_, ?_, ?_⟩
        · show ((setStatus st rid ReqStatus.done).reqs.map LockReq.rid).Nodup
          rw [setStatus_rid_map]
          exact hA
        · show (st.locks.map Prod.fst).Nodup
          exact hL
        · show ∀ i : Nat, ∀ hi : i < (setStatus st rid ReqStatus.done).reqs.length, ∀ p : Nat,
            ((setStatus st rid ReqStatus.done).reqs.get ⟨i, hi⟩).previous = some p →
            ∃ j : Nat, ∃ hj : j < (setStatus st rid ReqStatus.done).reqs.length, j < i ∧
              ((setStatus st rid ReqStatus.done).reqs.get ⟨j, hj⟩).rid = p ∧
              ((setStatus st rid ReqStatus.done).reqs.get ⟨j, hj⟩).key =
                ((setStatus st rid ReqStatus.done).reqs.get ⟨i, hi⟩).key
          exact linkOrder_setStatus st rid .done hO
        · show ∀ r1 ∈ (setStatus st rid ReqStatus.done).reqs,
            ∀ r2 ∈ (setStatus st rid ReqStatus.done).reqs, ∀ p : Nat,
            r1.previous = some p → r2.previous = some p → r1 = r2
          exact prevInj_setStatus st rid .done hB
        · show ∀ key t, alookup st.locks key = some t →
            ∃ q ∈ (setStatus st rid ReqStatus.done).reqs,
              q.rid = t ∧ q.key = key ∧ q.status ≠ .done ∧
              ∀ x ∈ (setStatus st rid ReqStatus.done).reqs, x.previous ≠ some t
          intro key t hlk
          obtain ⟨q, hq, hqrid, hqkey, hqnd, hnocons'⟩ := hC key t hlk
          have hqr : q.rid ≠ rid := by
            intro hc
            have hqeq : q = r := rid_inj hA hq hrmem (by rw [hc, hrrid])
            apply hcur
            have ht : t = rid := by rw [← hqrid, hc]
            have hk : key = r.key := by rw [← hqkey, hqeq]
            rw [← ht, ← hk]
            exact hlk
          refine ⟨if q.rid = rid then { q with status := ReqStatus.done } else q, ?_,
            ?_, ?_, ?_, ?_⟩
          · rw [setStatus_reqs]
            exact List.mem_map_of_mem _ hq
          · rw [upd_status_rid]
            exact hqrid
          · rw [upd_status_key]
            exact hqkey
          · rw [if_neg hqr]
            exact hqnd
          · intro x hx hc
            obtain ⟨y, hy, ey⟩ := mem_setStatus hx
            rw [ey, upd_status_previous] at hc
            exact hnocons' y hy hc
        · show ∀ key, alookup st.locks key = none →
            ∀ q ∈ (setStatus st rid ReqStatus.done).reqs, q.key = key → q.status = .done
          intro key hlk q' hq' hqk
          obtain ⟨y, hy, ey⟩ := mem_setStatus hq'
          rw [ey, upd_status_key] at hqk
          have hydone : y.status = .done := hD key hlk y hy hqk
          by_cases hyr : y.rid = rid
          · have hyeq : y = r := rid_inj hA hy hrmem (by rw [hyr, hrrid])
            rw [hyeq, hrun] at hydone
            cases hydone
          · rw [ey, if_neg hyr]
            exact hydone
        · show ∀ x ∈ (setStatus st rid ReqStatus.done).reqs, x.status = .running →
            prevResolved
              (LockState.mk (setStatus st rid ReqStatus.done).reqs (st.locks)) x.previous = true
          intro x hx hxrun
          rw [hPR]
          obtain ⟨y, hy, ey⟩ := mem_setStatus hx
          have hyr : y.rid ≠ rid := by
            intro hc
            rw [ey, if_pos hc] at hxrun
            cases hxrun
          rw [ey, if_neg hyr] at hxrun
          rw [ey, if_neg hyr]
          have hyres : prevResolved st y.previous = true := hE y hy hxrun
          cases hyp : y.previous with
          | none => rfl
          | some p =>
            rw [hyp] at hyres
            exact (hPRdone p).mpr (Or.inl hyres)
        · show ∀ r1 ∈ (setStatus st rid ReqStatus.done).reqs,
            ∀ r2 ∈ (setStatus st rid ReqStatus.done).reqs, r1.key = r2.key →
            r1.status ≠ .done → r2.status ≠ .done →
            prevResolved
              (LockState.mk (setStatus st rid ReqStatus.done).reqs (st.locks)) r1.previous = true →
            prevResolved
              (LockState.mk (setStatus st rid ReqStatus.done).reqs (st.locks)) r2.previous = true → r1 = r2
          intro r1 h1 r2 h2 hkey hnd1 hnd2 hres1 hres2
          rw [hPR] at hres1 hres2
          obtain ⟨y1, hy1, e1⟩ := mem_setStatus h1
          obtain ⟨y2, hy2, e2⟩ := mem_setStatus h2
          obtain ⟨hy1r, e1', hy1ne⟩ := hyner y1 hy1 (by rw [← e1]; exact hnd1)
          obtain ⟨hy2r, e2', hy2ne⟩ := hyner y2 hy2 (by rw [← e2]; exact hnd2)
          rw [e1, e1'] at hres1 ⊢
          rw [e2, e2'] at hres2 ⊢
          rw [e1, e1', e2, e2'] at hkey
          have hnd1' : y1.status ≠ .done := by rw [← e1', ← e1]; exact hnd1
          have hnd2' : y2.status ≠ .done := by rw [← e2', ← e2]; exact hnd2
          have hcases : ∀ y ∈ st.reqs,
              prevResolved (setStatus st rid ReqStatus.done) y.previous = true →
              prevResolved st y.previous = true ∨ y.previous = some rid := by
            intro y hy hres
            cases hyp : y.previous with
            | none => exact Or.inl rfl
            | some p =>
              rw [hyp] at hres
              rcases (hPRdone p).mp hres with h | h
              · exact Or.inl h
              · refine Or.inr ?_
                rw [h]
          have hkeyr : ∀ y ∈ st.reqs, y.previous = some rid → y.key = r.key := by
            intro y hy hyp
            obtain ⟨q, hq, hqrid, hqkey⟩ := linkTarget st hO y hy rid hyp
            have hqeq : q = r := rid_inj hA hq hrmem (by rw [hqrid, hrrid])
            rw [← hqkey, hqeq]
          have hresolved_eq_r : ∀ y ∈ st.reqs, y.key = r.key → y.status ≠ .done →
              prevResolved st y.previous = true → y = r :=
            fun y hy hk hnd hres => hF y hy r hrmem hk hnd hrnd hres hrres
          rcases hcases y1 hy1 hres1 with hc1 | hc1 <;>
            rcases hcases y2 hy2 hres2 with hc2 | hc2
          · exact hF y1 hy1 y2 hy2 hkey hnd1' hnd2' hc1 hc2
          · have hk1 : y1.key = r.key := by rw [hkey, hkeyr y2 hy2 hc2]
            exact absurd (hresolved_eq_r y1 hy1 hk1 hnd1' hc1) hy1ne
          · have hk2 : y2.key = r.key := by rw [← hkey, hkeyr y1 hy1 hc1]
            exact absurd (hresolved_eq_r y2 hy2 hk2 hnd2' hc2) hy2ne
          · exact hB y1 hy1 y2 hy2 rid hc1 hc2
    · rw [if_neg hrun] at hstep2
      exact absurd hstep2 (by simp)

theorem lockInv_init : LockInv lockInit := by
  unfold LockInv lockInit
  refine ⟨by simp, by simp, ?_, ?_, ?_, ?_, ?_, ?_⟩
  · intro i hi p hp
    exact absurd hi (by simp)
  · intro r1 h1 r2 h2 p hp1 hp2
    exact absurd h1 (by simp)
  · intro key t hlk
    exact absurd hlk (by simp [alookup])
  · intro key hlk q hq
    exact absurd hq (by simp)
  · intro r hr
    exact absurd hr (by simp)
  · intro r1 h1
    exact absurd h1 (by simp)

theorem lockInv_step (st st' : LockState) (e : LockEvent)
    (hInv : LockInv st) (hstep : lockStep st e = some st') : LockInv st' := by
  cases e with
  | arrive key rid => exact lockInv_arrive st st' key rid hInv hstep
  | start rid => exact lockInv_start st st' rid hInv hstep
  | finish rid => exact lockInv_finish st st' rid hInv hstep

theorem lockInv_foldl (events : List LockEvent) :
    ∀ st0 : LockState, LockInv st0 → ∀ st : LockState,
      events.foldlM lockStep st0 = some st → LockInv st := by
  induction events with
  | nil =>
    intro st0 h0 st h
    have he : st0 = st := by simpa using h
    rw [← he]
    exact h0
  | cons e rest ih =>
    intro st0 h0 st h
    rw [List.foldlM_cons] at h
    cases hs : lockStep st0 e with
    | none =>
      rw [hs] at h
      exact absurd h (by simp)
    | some s1 =>
      rw [hs] at h
      exact ih s1 (lockInv_step st0 s1 e h0 hs) st (by simpa using h)

theorem lockInv_run (events : List LockEvent) (st : LockState)
    (h : lockRun events = some st) : LockInv st :=
  lockInv_foldl events lockInit lockInv_init st h

/-- C9: per-conversation single flight — `ChatService.withChatLock`.  In every
state reachable by any interleaving of `withChatLock` transitions, at most one
request per conversation key has its task body running (two running requests
with the same key are identical), so one conversation's history and overrides
are never read or mutated concurrently; and requests on different keys proceed
independently: with a request in flight on "k1", a request on "k2" starts
without waiting, leaving both running side by side. -/
theorem withchatlock_single_flight :
    (∀ (events : List LockEvent) (st : LockState), lockRun events = some st →
      ∀ r1 ∈ st.reqs, ∀ r2 ∈ st.reqs, r1.key = r2.key →
        r1.status = .running → r2.status = .running → r1 = r2) ∧
    lockRun [.arrive "k1" 1, .arrive "k2" 2, .start 1, .start 2] =
      some { reqs := [{ rid := 1, key := "k1", previous := none, status := .running },
                      { rid := 2, key := "k2", previous := none, status := .running }],
             locks := [("k1", 1), ("k2", 2)] } := by
  constructor
  · intro events st h r1 h1 r2 h2 hkey h1run h2run
    obtain ⟨hA, hL, hO, hB, hC, hD, hE, hF⟩ := lockInv_run events st h
    refine hF r1 h1 r2 h2 hkey ?_ ?_ (hE r1 h1 h1run) (hE r2 h2 h2run)
    · rw [h1run]
      intro hc
      cases hc
    · rw [h2run]
      intro hc
      cases hc
  · decide

/-- Witness for C9: a concrete two-request same-key run — request 2 arrives on
key "k" while request 1 is in flight — reaches the state where 1 is running
and 2 is queued waiting behind it, and the mutex theorem applies to that run. -/
theorem withchatlock_single_flight_witness :
    lockRun [.arrive "k" 1, .arrive "k" 2, .start 1] =
      some { reqs := [{ rid := 1, key := "k", previous := none, status := .running },
                      { rid := 2, key := "k", previous := some 1, status := .waiting }],
             locks := [("k", 2)] } ∧
    ({ rid := 1, key := "k", previous := none, status := .running } : LockReq) =
      { rid := 1, key := "k", previous := none, status := .running } :=
  ⟨by decide,
   withchatlock_single_flight.1 [.arrive "k" 1, .arrive "k" 2, .start 1]
     { reqs := [{ rid := 1, key := "k", previous := none, status := .running },
                { rid := 2, key := "k", previous := some 1, status := .waiting }],
       locks := [("k", 2)] }
     (by decide)
     { rid := 1, key := "k", previous := none, status := .running } (by decide)
     { rid := 1, key := "k", previous := none, status := .running } (by decide)
     rfl rfl rfl⟩

end Openshell
